import Mathlib

/-!
Verification development for the nzcore core library.

This file shallowly embeds the data model and operations of the nzcore
repository (identity derivation, canonical JSON, logical clock, chain state
manager, core facade, three-layer validator) as executable Lean definitions,
and proves or refutes the frozen specification claims about them.

Conventions of the embedding:
* byte strings are `List Nat` with every element < 256;
* JavaScript numbers appearing as logical times are `Nat` (they are
  non-negative integers in every reachable use); 32-bit coercion
  (`Uint32Array`) is explicit `% 2 ^ 32`;
* JavaScript exceptions are `Except Err`; a `try`/`catch` block is the
  `tryE` combinator;
* mutation is explicit state passing; a JS method that may both mutate and
  throw returns `Except Err α × State` so that partial mutations on the
  throwing paths are kept, exactly as in the source.
-/

set_option maxRecDepth 1000000

/-- Error value mirroring NewZoneCoreError: a code plus a message
(structured context dropped; no claim inspects it). -/
structure Err where
  code : String
  msg : String
deriving DecidableEq, Repr

/-- ERROR_CODES.INVALID_KEY from src/constants.ts. -/
def ERR_INVALID_KEY : String := "ERR_INVALID_KEY"

/-- ERROR_CODES.INVALID_SIGNATURE from src/constants.ts. -/
def ERR_INVALID_SIGNATURE : String := "ERR_INVALID_SIGNATURE"

/-- ERROR_CODES.NON_CANONICAL_JSON from src/constants.ts. -/
def ERR_NON_CANONICAL_JSON : String := "ERR_NON_CANONICAL_JSON"

/-- ERROR_CODES.LOGICAL_TIME_VIOLATION from src/constants.ts. -/
def ERR_LOGICAL_TIME_VIOLATION : String := "ERR_LOGICAL_TIME_VIOLATION"

/-- ERROR_CODES.VALIDATION_FAILED from src/constants.ts. -/
def ERR_VALIDATION_FAILED : String := "ERR_VALIDATION_FAILED"

/-- ERROR_CODES.CRYPTO_SUITE_MISMATCH from src/constants.ts. -/
def ERR_CRYPTO_SUITE_MISMATCH : String := "ERR_CRYPTO_SUITE_MISMATCH"

/-- CRYPTO_SUITE constant from src/constants.ts. -/
def CRYPTO_SUITE : String := "nzcore-crypto-01"

/-- DOCUMENT_VERSION constant from src/constants.ts. -/
def DOCUMENT_VERSION : String := "1.0"

/-- LOGICAL_TIME.MAX from src/constants.ts: Number.MAX_SAFE_INTEGER. -/
def LOGICAL_TIME_MAX : Nat := 2 ^ 53 - 1

/-- KEY_LENGTHS.DOCUMENT_ID from src/constants.ts. -/
def KEY_LENGTHS_DOCUMENT_ID : Nat := 32

/-- KEY_LENGTHS.CHAIN_ID from src/constants.ts. -/
def KEY_LENGTHS_CHAIN_ID : Nat := 32

/-- The 64-character all-zero hash used to seed the chain
(`'0'.repeat(64)` in src/chain/state.ts). -/
def zeros64 : String := String.mk (List.replicate 64 (Char.ofNat 48))

/-- UTF-8 encoding of a single Unicode scalar value (TextEncoder semantics;
Lean `Char` is always a scalar value, so no surrogate replacement arises). -/
def charUtf8 (c : Char) : List Nat :=
  let n := c.toNat
  if n < 128 then [n]
  else if n < 2048 then [192 + n / 64, 128 + n % 64]
  else if n < 65536 then [224 + n / 4096, 128 + n / 64 % 64, 128 + n % 64]
  else [240 + n / 262144, 128 + n / 4096 % 64, 128 + n / 64 % 64, 128 + n % 64]

/-- TextEncoder().encode: UTF-8 bytes of a string. -/
def utf8Bytes (s : String) : List Nat := s.data.flatMap charUtf8

/-- UTF-16 code units of a single scalar value (used for the JS default
string sort order inside the canonicalizer). -/
def charUtf16 (c : Char) : List Nat :=
  let n := c.toNat
  if n < 65536 then [n]
  else [55296 + (n - 65536) / 1024, 56320 + (n - 65536) % 1024]

/-- UTF-16 code units of a string. -/
def utf16Units (s : String) : List Nat := s.data.flatMap charUtf16

/-- Strict lexicographic order on lists of naturals: the JS `<` on strings
compared code unit by code unit. -/
def lexLt : List Nat → List Nat → Bool
  | [], [] => false
  | [], _ :: _ => true
  | _ :: _, [] => false
  | a :: as, b :: bs => if a < b then true else if b < a then false else lexLt as bs

/-- Lowercase hex digit for a value < 16. -/
def hexDigitChar (n : Nat) : Char :=
  if n < 10 then Char.ofNat (48 + n) else Char.ofNat (87 + n)

/-- toHex from src/utils/encoding.ts: each byte as two lowercase hex digits. -/
def toHex (bytes : List Nat) : String :=
  String.mk (bytes.flatMap (fun b => [hexDigitChar (b / 16 % 16), hexDigitChar (b % 16)]))

/-- Little-endian bytes of the low 32 bits of a JS number, i.e. the contents
of `new Uint8Array(new Uint32Array([t]).buffer)`: ToUint32 is reduction
modulo 2^32, and the buffer is read little-endian. -/
def u32leBytes (t : Nat) : List Nat :=
  let m := t % 2 ^ 32
  [m % 256, m / 256 % 256, m / 65536 % 256, m / 16777216 % 256]

/-- Addition modulo 2^64. -/
def add64 (a b : Nat) : Nat := (a + b) % 2 ^ 64

/-- Bitwise xor (stays below 2^64 for operands below 2^64). -/
def xor64 (a b : Nat) : Nat := Nat.xor a b

/-- Right rotation of a 64-bit word by n (0 < n < 64). -/
def rotr64 (x n : Nat) : Nat := x / 2 ^ n + x % 2 ^ n * 2 ^ (64 - n)

/-- Little-endian 8-byte serialization of a 64-bit word. -/
def le64Bytes (x : Nat) : List Nat :=
  [x % 256, x / 2 ^ 8 % 256, x / 2 ^ 16 % 256, x / 2 ^ 24 % 256,
   x / 2 ^ 32 % 256, x / 2 ^ 40 % 256, x / 2 ^ 48 % 256, x / 2 ^ 56 % 256]

/-- Little-endian 64-bit word from (up to) 8 bytes. -/
def le64OfBytes (bs : List Nat) : Nat :=
  match bs with
  | [] => 0
  | b :: rest => b + 256 * le64OfBytes rest

/-- BLAKE2b initialization vector (RFC 7693). -/
def blakeIV : List Nat :=
  [0x6a09e667f3bcc908, 0xbb67ae8584caa73b, 0x3c6ef372fe94f82b, 0xa54ff53a5f1d36f1,
   0x510e527fade682d1, 0x9b05688c2b3e6c1f, 0x1f83d9abfb41bd6b, 0x5be0cd19137e2179]

/-- BLAKE2b message schedule SIGMA (RFC 7693); round i uses row i % 10. -/
def blakeSigma : List (List Nat) :=
  [[0, 1, 2, 3, 4, 5, 6, 7, 8, 9, 10, 11, 12, 13, 14, 15],
   [14, 10, 4, 8, 9, 15, 13, 6, 1, 12, 0, 2, 11, 7, 5, 3],
   [11, 8, 12, 0, 5, 2, 15, 13, 10, 14, 3, 6, 7, 1, 9, 4],
   [7, 9, 3, 1, 13, 12, 11, 14, 2, 6, 5, 10, 4, 0, 15, 8],
   [9, 0, 5, 7, 2, 4, 10, 15, 14, 1, 11, 12, 6, 8, 3, 13],
   [2, 12, 6, 10, 0, 11, 8, 3, 4, 13, 7, 5, 15, 14, 1, 9],
   [12, 5, 1, 15, 14, 13, 4, 10, 0, 7, 6, 3, 9, 2, 8, 11],
   [13, 11, 7, 14, 12, 1, 3, 9, 5, 0, 15, 4, 8, 6, 2, 10],
   [6, 15, 14, 9, 11, 3, 0, 8, 12, 2, 13, 7, 1, 4, 10, 5],
   [10, 2, 8, 4, 7, 6, 1, 5, 15, 11, 9, 14, 3, 12, 13, 0]]

/-- BLAKE2b mixing function G acting on the 16-word work vector. -/
def blakeG (v : List Nat) (a b c d x y : Nat) : List Nat :=
  let va := v.getD a 0
  let vb := v.getD b 0
  let vc := v.getD c 0
  let vd := v.getD d 0
  let va := add64 (add64 va vb) x
  let vd := rotr64 (xor64 vd va) 32
  let vc := add64 vc vd
  let vb := rotr64 (xor64 vb vc) 24
  let va := add64 (add64 va vb) y
  let vd := rotr64 (xor64 vd va) 16
  let vc := add64 vc vd
  let vb := rotr64 (xor64 vb vc) 63
  ((((v.set a va).set b vb).set c vc).set d vd)

/-- One BLAKE2b round: eight G applications driven by a SIGMA row s over
message words m. -/
def blakeRound (m : List Nat) (v : List Nat) (s : List Nat) : List Nat :=
  let mi := fun i => m.getD (s.getD i 0) 0
  let v := blakeG v 0 4 8 12 (mi 0) (mi 1)
  let v := blakeG v 1 5 9 13 (mi 2) (mi 3)
  let v := blakeG v 2 6 10 14 (mi 4) (mi 5)
  let v := blakeG v 3 7 11 15 (mi 6) (mi 7)
  let v := blakeG v 0 5 10 15 (mi 8) (mi 9)
  let v := blakeG v 1 6 11 12 (mi 10) (mi 11)
  let v := blakeG v 2 7 8 13 (mi 12) (mi 13)
  let v := blakeG v 3 4 9 14 (mi 14) (mi 15)
  v

/-- BLAKE2b compression function F (RFC 7693): h is the 8-word state, m the
16 message words, t the byte offset counter (< 2^64 here), f the final flag. -/
def blakeCompress (h : List Nat) (m : List Nat) (t : Nat) (f : Bool) : List Nat :=
  let v := h ++ blakeIV
  let v := v.set 12 (xor64 (v.getD 12 0) (t % 2 ^ 64))
  let v := v.set 13 (xor64 (v.getD 13 0) (t / 2 ^ 64 % 2 ^ 64))
  let v := if f then v.set 14 (xor64 (v.getD 14 0) (2 ^ 64 - 1)) else v
  let v := (List.range 12).foldl (fun v i => blakeRound m v (blakeSigma.getD (i % 10) [])) v
  (List.range 8).map (fun i => xor64 (h.getD i 0) (xor64 (v.getD i 0) (v.getD (i + 8) 0)))

/-- The 16 little-endian message words of a 128-byte block. -/
def blockWords (block : List Nat) : List Nat :=
  (List.range 16).map (fun i => le64OfBytes ((block.drop (8 * i)).take 8))

/-- Take n blocks of 128 bytes (structural recursion, so the kernel can
evaluate it). -/
def chunkN : Nat → List Nat → List (List Nat)
  | 0, _ => []
  | n + 1, data => data.take 128 :: chunkN n (data.drop 128)

/-- Split padded input (whose length is a multiple of 128) into its
128-byte blocks. -/
def chunk128 (data : List Nat) : List (List Nat) := chunkN (data.length / 128) data

/-- Sequentially compress all blocks; ll is the total unpadded input length,
done the number of bytes consumed by previous blocks. The final block is
compressed with t = ll and the final flag set (RFC 7693 unkeyed hashing). -/
def blakeBlocks (ll : Nat) : List Nat → List (List Nat) → Nat → List Nat
  | h, [], _ => h
  | h, [b], _ => blakeCompress h (blockWords b) ll true
  | h, b :: rest, done =>
      blakeBlocks ll (blakeCompress h (blockWords b) (done + 128) false) rest (done + 128)

/-- BLAKE2b with 32-byte digest and no key, as used by @noble/hashes
`blake2b(data, { dkLen: 32 })` throughout the crypto suite. The parameter
block folds into h0 as 0x01010000 xor dkLen. -/
def blake2b256 (data : List Nat) : List Nat :=
  let h0 := xor64 (blakeIV.getD 0 0) 0x01010020
  let h := h0 :: blakeIV.drop 1
  let padded :=
    if data.length = 0 then List.replicate 128 0
    else data ++ List.replicate ((128 - data.length % 128) % 128) 0
  let hFinal := blakeBlocks data.length h (chunk128 padded) 0
  le64Bytes (hFinal.getD 0 0) ++ le64Bytes (hFinal.getD 1 0) ++
  le64Bytes (hFinal.getD 2 0) ++ le64Bytes (hFinal.getD 3 0)

/-- The 32-byte digest really has 32 bytes. -/
theorem blake2b256_length (data : List Nat) : (blake2b256 data).length = 32 := by
  simp [blake2b256, le64Bytes]

mutual
/-- JSON values as JavaScript sees them after parsing: object fields keep
insertion order (JS objects preserve it), numbers are modelled as integers
(every number in the core's documents is an integer). -/
inductive Json where
  | null : Json
  | bool : Bool → Json
  | num : Int → Json
  | str : String → Json
  | arr : JsonList → Json
  | obj : JsonFields → Json
deriving DecidableEq, Repr
inductive JsonList where
  | nil : JsonList
  | cons : Json → JsonList → JsonList
deriving DecidableEq, Repr
inductive JsonFields where
  | nil : JsonFields
  | cons : String → Json → JsonFields → JsonFields
deriving DecidableEq, Repr
end

/-- Double-quote character. -/
def qChar : Char := Char.ofNat 34

/-- Backslash character. -/
def bsChar : Char := Char.ofNat 92

/-- Left brace character. -/
def lbChar : Char := Char.ofNat 123

/-- Right brace character. -/
def rbChar : Char := Char.ofNat 125

/-- JSON string escaping used by JSON.stringify and RFC 8785: quote,
backslash, the five short escapes, and \u00XX for other control chars. -/
def escapeChar (c : Char) : List Char :=
  if c = qChar then [bsChar, qChar]
  else if c = bsChar then [bsChar, bsChar]
  else if c.toNat = 8 then [bsChar, 'b']
  else if c.toNat = 9 then [bsChar, 't']
  else if c.toNat = 10 then [bsChar, 'n']
  else if c.toNat = 12 then [bsChar, 'f']
  else if c.toNat = 13 then [bsChar, 'r']
  else if c.toNat < 32 then
    [bsChar, 'u', '0', '0', hexDigitChar (c.toNat / 16), hexDigitChar (c.toNat % 16)]
  else [c]

/-- Quoted, escaped JSON string literal. -/
def strQuote (s : String) : List Char :=
  qChar :: s.data.flatMap escapeChar ++ [qChar]

mutual
/-- Render a JSON value in JSON.stringify form: insertion order of fields,
no insignificant whitespace. -/
def renderJson : Json → List Char
  | .null => "null".data
  | .bool true => "true".data
  | .bool false => "false".data
  | .num n => (toString n).data
  | .str s => strQuote s
  | .arr xs => '[' :: renderArr xs ++ [']']
  | .obj fs => lbChar :: renderFields fs ++ [rbChar]
def renderArr : JsonList → List Char
  | .nil => []
  | .cons h .nil => renderJson h
  | .cons h (.cons h2 t) => renderJson h ++ ',' :: renderArr (.cons h2 t)
def renderFields : JsonFields → List Char
  | .nil => []
  | .cons k v .nil => strQuote k ++ ':' :: renderJson v
  | .cons k v (.cons k2 v2 t) =>
      strQuote k ++ ':' :: renderJson v ++ ',' :: renderFields (.cons k2 v2 t)
end

/-- Insert a field into a key-sorted field list, before the first field
whose key is not strictly smaller (the stable placement used when sorting). -/
def insertField (k : String) (v : Json) : JsonFields → JsonFields
  | .nil => .cons k v .nil
  | .cons k2 v2 t =>
      if lexLt (utf16Units k2) (utf16Units k) then .cons k2 v2 (insertField k v t)
      else .cons k v (.cons k2 v2 t)

/-- Stable insertion sort of object fields by key, in the UTF-16 code unit
order that the canonicalizer's `Object.keys(obj).sort()` uses. -/
def sortFields : JsonFields → JsonFields
  | .nil => .nil
  | .cons k v t => insertField k v (sortFields t)

mutual
/-- Recursively sort every object's fields: the value that the RFC 8785
canonicalizer serializes. -/
def sortValue : Json → Json
  | .obj fs => .obj (sortFields (sortFieldVals fs))
  | .arr xs => .arr (sortArrVals xs)
  | .null => .null
  | .bool b => .bool b
  | .num n => .num n
  | .str s => .str s
def sortArrVals : JsonList → JsonList
  | .nil => .nil
  | .cons h t => .cons (sortValue h) (sortArrVals t)
def sortFieldVals : JsonFields → JsonFields
  | .nil => .nil
  | .cons k v t => .cons k (sortValue v) (sortFieldVals t)
end

/-- JSON.stringify of a value (insertion order). -/
def jsStringify (j : Json) : String := String.mk (renderJson j)

/-- CanonicalJSON.serialize from src/document/canonical.ts: the canonicalize
package renders with recursively sorted keys. Total on this model of JSON
values (the JS failure mode — unserializable values such as undefined or
cycles — has no representation here). -/
def CanonicalJSON.serialize (j : Json) : String := String.mk (renderJson (sortValue j))

/-- A JSON value is in canonical form when its own JS rendering coincides
with its canonical serialization. -/
def inCanonicalForm (j : Json) : Bool := jsStringify j = CanonicalJSON.serialize j

/-- JSON whitespace skip (space, tab, newline, carriage return). -/
def skipWs : List Char → List Char
  | c :: rest =>
      if c = ' ' ∨ c.toNat = 9 ∨ c.toNat = 10 ∨ c.toNat = 13 then skipWs rest
      else c :: rest
  | [] => []

/-- Hex digit value accepted by parseInt(_, 16). -/
def hexDigitVal (c : Char) : Option Nat :=
  if 48 ≤ c.toNat ∧ c.toNat ≤ 57 then some (c.toNat - 48)
  else if 97 ≤ c.toNat ∧ c.toNat ≤ 102 then some (c.toNat - 87)
  else if 65 ≤ c.toNat ∧ c.toNat ≤ 70 then some (c.toNat - 55)
  else none

/-- Decimal digit test. -/
def isDigitCh (c : Char) : Bool := 48 ≤ c.toNat ∧ c.toNat ≤ 57

/-- Parse the body of a JSON string literal after the opening quote,
returning the decoded characters and the remaining input. -/
def parseStrChars : List Char → Option (List Char × List Char)
  | [] => none
  | c :: rest =>
      if c = qChar then some ([], rest)
      else if c = bsChar then
        match rest with
        | [] => none
        | e :: rest2 =>
            if e = qChar then (parseStrChars rest2).map (fun p => (qChar :: p.1, p.2))
            else if e = bsChar then (parseStrChars rest2).map (fun p => (bsChar :: p.1, p.2))
            else if e = '/' then (parseStrChars rest2).map (fun p => ('/' :: p.1, p.2))
            else if e = 'b' then (parseStrChars rest2).map (fun p => (Char.ofNat 8 :: p.1, p.2))
            else if e = 'f' then (parseStrChars rest2).map (fun p => (Char.ofNat 12 :: p.1, p.2))
            else if e = 'n' then (parseStrChars rest2).map (fun p => (Char.ofNat 10 :: p.1, p.2))
            else if e = 'r' then (parseStrChars rest2).map (fun p => (Char.ofNat 13 :: p.1, p.2))
            else if e = 't' then (parseStrChars rest2).map (fun p => (Char.ofNat 9 :: p.1, p.2))
            else if e = 'u' then
              match rest2 with
              | h1 :: h2 :: h3 :: h4 :: rest3 =>
                  match hexDigitVal h1, hexDigitVal h2, hexDigitVal h3, hexDigitVal h4 with
                  | some a, some b, some c2, some d =>
                      (parseStrChars rest3).map
                        (fun p => (Char.ofNat (4096 * a + 256 * b + 16 * c2 + d) :: p.1, p.2))
                  | _, _, _, _ => none
              | _ => none
            else none
      else (parseStrChars rest).map (fun p => (c :: p.1, p.2))

/-- Parse a run of decimal digits into a natural number. -/
def parseDigits (acc : Nat) : List Char → Nat × List Char
  | c :: rest => if isDigitCh c then parseDigits (acc * 10 + (c.toNat - 48)) rest else (acc, c :: rest)
  | [] => (acc, [])

/-- Parse a JSON number restricted to the integral forms that appear in this
development (every number serialized or parsed by the embedded operations is
an integer; a fraction or exponent makes the parse fail). -/
def parseIntLit : List Char → Option (Int × List Char)
  | c :: rest =>
      let (neg, digitsIn) : Bool × List Char :=
        if c = '-' then (true, rest) else (false, c :: rest)
      match digitsIn with
      | d :: rest2 =>
          if isDigitCh d then
            let (n, rest3) := parseDigits (d.toNat - 48) rest2
            match rest3 with
            | c2 :: _ =>
                if c2 = '.' ∨ c2 = 'e' ∨ c2 = 'E' then none
                else some (if neg then -(n : Int) else (n : Int), rest3)
            | [] => some (if neg then -(n : Int) else (n : Int), [])
          else none
      | [] => none
  | [] => none

/-- Set a field with JS object assignment semantics: overwrite the value in
place if the key exists (keeping its original position), else append. -/
def jsSetField (fs : JsonFields) (k : String) (v : Json) : JsonFields :=
  match fs with
  | .nil => .cons k v .nil
  | .cons k2 v2 t => if k2 = k then .cons k2 v t else .cons k2 v2 (jsSetField t k v)

/-- Build a JS object from parsed key/value pairs in textual order
(duplicate keys: later value wins, first position kept — JSON.parse
semantics). -/
def buildObj (raw : List (String × Json)) : JsonFields :=
  raw.foldl (fun acc p => jsSetField acc p.1 p.2) .nil

mutual
/-- Recursive-descent JSON value parser (JSON.parse model), fuel-indexed so
that it is structural and kernel-evaluable. -/
def parseVal : Nat → List Char → Option (Json × List Char)
  | 0, _ => none
  | fuel + 1, cs =>
      match skipWs cs with
      | 'n' :: 'u' :: 'l' :: 'l' :: rest => some (.null, rest)
      | 't' :: 'r' :: 'u' :: 'e' :: rest => some (.bool true, rest)
      | 'f' :: 'a' :: 'l' :: 's' :: 'e' :: rest => some (.bool false, rest)
      | c :: rest =>
          if c = qChar then
            (parseStrChars rest).map (fun p => (.str (String.mk p.1), p.2))
          else if c = lbChar then
            match skipWs rest with
            | c2 :: rest2 =>
                if c2 = rbChar then some (.obj .nil, rest2)
                else
                  (parseFieldList fuel (c2 :: rest2)).map
                    (fun p => (.obj (buildObj p.1), p.2))
            | [] => none
          else if c = '[' then
            match skipWs rest with
            | c2 :: rest2 =>
                if c2 = ']' then some (.arr .nil, rest2)
                else (parseElems fuel (c2 :: rest2)).map (fun p => (.arr p.1, p.2))
            | [] => none
          else
            (parseIntLit (c :: rest)).map (fun p => (.num p.1, p.2))
      | [] => none

/-- Parse one or more comma-separated object members followed by the
closing brace. -/
def parseFieldList : Nat → List Char → Option (List (String × Json) × List Char)
  | 0, _ => none
  | fuel + 1, cs =>
      match skipWs cs with
      | c :: rest =>
          if c = qChar then
            match parseStrChars rest with
            | some (kcs, rest2) =>
                match skipWs rest2 with
                | c2 :: rest3 =>
                    if c2 = ':' then
                      match parseVal fuel rest3 with
                      | some (v, rest4) =>
                          match skipWs rest4 with
                          | c3 :: rest5 =>
                              if c3 = ',' then
                                (parseFieldList fuel rest5).map
                                  (fun p => ((String.mk kcs, v) :: p.1, p.2))
                              else if c3 = rbChar then
                                some ([(String.mk kcs, v)], rest5)
                              else none
                          | [] => none
                      | none => none
                    else none
                | [] => none
            | none => none
          else none
      | [] => none

/-- Parse one or more comma-separated array elements followed by the
closing bracket. -/
def parseElems : Nat → List Char → Option (JsonList × List Char)
  | 0, _ => none
  | fuel + 1, cs =>
      match parseVal fuel cs with
      | some (v, rest) =>
          match skipWs rest with
          | c :: rest2 =>
              if c = ',' then
                (parseElems fuel rest2).map (fun p => (.cons v p.1, p.2))
              else if c = ']' then some (.cons v .nil, rest2)
              else none
          | [] => none
      | none => none
end

/-- JSON.parse: parse a complete value, allowing trailing whitespace only. -/
def jsonParse (s : String) : Option Json :=
  match parseVal (s.data.length + 1) s.data with
  | some (v, rest) => if skipWs rest = [] then some v else none
  | none => none

/-- CanonicalJSON.assertCanonical from src/document/canonical.ts: parse,
re-serialize canonically, and require byte equality with the input
(constant-time in the source; plain equality here). -/
def CanonicalJSON.assertCanonical (s : String) : Except Err Unit :=
  match jsonParse s with
  | none => .error ⟨ERR_NON_CANONICAL_JSON, "Invalid JSON structure"⟩
  | some obj =>
      if CanonicalJSON.serialize obj = s then .ok ()
      else .error ⟨ERR_NON_CANONICAL_JSON,
        "Non-canonical JSON: MUST reject before signature verification"⟩

/-- CanonicalJSON.isCanonical from src/document/canonical.ts. -/
def CanonicalJSON.isCanonical (s : String) : Bool :=
  (CanonicalJSON.assertCanonical s).toBool

/-- Blake2b.hashWithDomain from src/crypto/blake2b.ts: BLAKE2b-256 of the
UTF-8 bytes of `domain + ":"` followed by the data. -/
def Blake2b.hashWithDomain (domain : String) (data : List Nat) : List Nat :=
  blake2b256 (utf8Bytes (domain ++ ":") ++ data)

/-- Blake2b.doubleHash from src/crypto/blake2b.ts: BLAKE2b(BLAKE2b(data)). -/
def Blake2b.doubleHash (data : List Nat) : List Nat :=
  blake2b256 (blake2b256 data)

/-- IdentityDerivation.deriveDocumentId from identity/derivation.js:
domain-separated BLAKE2b over chain id bytes, parent hash bytes and the
logical time as `new Uint8Array(new Uint32Array([logicalTime]).buffer)`
(little-endian low 32 bits), truncated to 32 bytes and hex-encoded. -/
def IdentityDerivation.deriveDocumentId (chainId parentHash : String) (logicalTime : Nat) : String :=
  toHex ((Blake2b.hashWithDomain ("nzcore-" ++ CRYPTO_SUITE ++ "-document")
    (utf8Bytes chainId ++ utf8Bytes parentHash ++ u32leBytes logicalTime)).take
      KEY_LENGTHS_DOCUMENT_ID)

/-- Document id derivation transcribed from the words of spec section 4.3:
hex of the first 32 bytes of BLAKE2b-256 over the domain prefix
"nzcore-nzcore-crypto-01-document" joined with ":", followed by the chain id
bytes, the parent hash bytes, and the logical time as a 32-bit little-endian
integer. -/
def specDocumentId (c h : String) (t : Nat) : String :=
  toHex ((blake2b256 (utf8Bytes "nzcore-nzcore-crypto-01-document" ++ utf8Bytes ":" ++
    utf8Bytes c ++ utf8Bytes h ++
    [t % 256, t / 256 % 256, t / 65536 % 256, t / 16777216 % 256])).take 32)

/-- Modelled from the spec: `Blake2b.computeDocumentHash`, called by
ChainStateManager.verifyIntegrity in src/chain/state.ts, has no body in the
repository (only the declaration in dist/types, whose doc comment says it
uses the same algorithm as IdentityDerivation.deriveDocumentId). Following
spec section 4.6 — "recompute id from 4.3" — and that declaration, it is
the section-4.3 domain-separated derivation; the payload argument does not
enter the hash. -/
def Blake2b.computeDocumentHash (chainId parentHash : String) (logicalTime : Nat)
    (_payload : Json) : String :=
  IdentityDerivation.deriveDocumentId chainId parentHash logicalTime

/-- State of a LogicalClock from src/identity/logical-time.ts: the counter
and the frozen flag (the max bound is the constant LOGICAL_TIME.MAX). -/
structure ClockState where
  current : Nat
  frozen : Bool
deriving DecidableEq, Repr

/-- LogicalClock.tick: throws when frozen or at the bound, otherwise
increments and returns the new value. -/
def LogicalClock.tick (c : ClockState) : Except Err (Nat × ClockState) :=
  if c.frozen then .error ⟨ERR_LOGICAL_TIME_VIOLATION, "Clock frozen - cannot advance"⟩
  else if LOGICAL_TIME_MAX ≤ c.current then
    .error ⟨ERR_LOGICAL_TIME_VIOLATION, "Logical time overflow"⟩
  else .ok (c.current + 1, { c with current := c.current + 1 })

/-- A chain document as produced by the builder: the fixed field schema of
spec section 3 (no unknown fields are created by the facade path). -/
structure Doc where
  type : String
  version : String
  id : String
  chain_id : String
  parent_hash : String
  logical_time : Nat
  crypto_suite : String
  created_at : String
  payload : Json
  signature : String
deriving DecidableEq, Repr

/-- Fork record (ForkInfo in src/types.ts). -/
structure ForkInfo where
  parentHash : String
  documents : List String
  detectedAt : Nat
  resolved : Bool
  resolution : Option String := none
deriving DecidableEq, Repr

/-- State owned by a ChainStateManager (src/chain/state.ts): insertion-
ordered document map (keyed by id), last-hash pointer, its own logical
clock, the detected-fork table and the fork cache flag. -/
structure ChainMState where
  chainId : String
  documents : List Doc
  lastHash : String
  clock : ClockState
  detectedForks : List (String × ForkInfo)
  forkCacheValid : Bool
deriving DecidableEq, Repr

/-- Map.set keyed by document id: replace in place when the id exists,
append otherwise. -/
def setById (docs : List Doc) (d : Doc) : List Doc :=
  match docs with
  | [] => [d]
  | e :: rest => if e.id = d.id then d :: rest else e :: setById rest d

/-- Assoc-map set for the detected-fork table. -/
def setForkEntry (m : List (String × ForkInfo)) (k : String) (f : ForkInfo) :
    List (String × ForkInfo) :=
  match m with
  | [] => [(k, f)]
  | e :: rest => if e.1 = k then (k, f) :: rest else e :: setForkEntry rest k f

/-- Private ChainStateManager#detectFork (src/chain/state.ts): collect the
stored documents sharing the incoming document's parent hash; if any exist,
record a fork entry with resolved = false. -/
def ChainMState.recordFork (st : ChainMState) (d : Doc) : ChainMState :=
  let siblings := st.documents.filter (fun e => e.parent_hash = d.parent_hash)
  if siblings.isEmpty then st
  else
    let fi : ForkInfo :=
      { parentHash := d.parent_hash
        documents := siblings.map (fun e => e.id) ++ [d.id]
        detectedAt := st.clock.current
        resolved := false }
    { st with detectedForks := setForkEntry st.detectedForks d.parent_hash fi }

/-- ChainStateManager.append (src/chain/state.ts). Mirrors the mutation
order of the source: the chain-id check throws before any mutation; the
clock tick is last, so a tick failure leaves the document already stored
(the returned state keeps those mutations, as the JS object would). -/
def ChainMState.append (st : ChainMState) (d : Doc) : Except Err Unit × ChainMState :=
  if d.chain_id ≠ st.chainId then
    (.error ⟨ERR_VALIDATION_FAILED, "Document chain ID mismatch"⟩, st)
  else
    let st := if d.parent_hash ≠ st.lastHash then st.recordFork d else st
    let st := { st with
      documents := setById st.documents d
      lastHash := d.id
      forkCacheValid := false }
    match LogicalClock.tick st.clock with
    | .error e => (.error e, st)
    | .ok (_, c) => (.ok (), { st with clock := c })

/-- ChainStateManager.verifyIntegrity (src/chain/state.ts): sort by logical
time, then walk the chain requiring each parent hash to equal the previous
id and each id to equal the recomputed document hash. The JS Array sort is
stable (ES2019); it is modelled as a stable insertion sort by logical time. -/
def insertByTime (d : Doc) : List Doc → List Doc
  | [] => [d]
  | e :: rest =>
      if e.logical_time ≤ d.logical_time then e :: insertByTime d rest
      else d :: e :: rest

/-- Stable sort of documents by ascending logical time. -/
def sortByTime : List Doc → List Doc
  | [] => []
  | d :: rest => insertByTime d (sortByTime rest)

/-- Linkage-and-id walk of verifyIntegrity over the sorted documents. -/
def integrityWalk : String → List Doc → Bool
  | _, [] => true
  | prev, d :: rest =>
      if d.parent_hash ≠ prev then false
      else if Blake2b.computeDocumentHash d.chain_id d.parent_hash d.logical_time d.payload
          ≠ d.id then false
      else integrityWalk d.id rest

/-- ChainStateManager.verifyIntegrity. -/
def ChainMState.verifyIntegrity (st : ChainMState) : Bool :=
  integrityWalk zeros64 (sortByTime st.documents)

/-- State of the core facade (src/core.ts): the facade's own logical clock
plus the chain state manager. Identity material is not modelled: the chain id
enters as the manager's chainId and signing is a parameter of
createDocument. -/
structure CoreState where
  clock : ClockState
  chain : ChainMState
deriving DecidableEq, Repr

/-- A freshly created facade (NewZoneCore.create with default options):
facade clock at 1, manager constructed with the same initial time, empty
chain with the all-zero last hash. -/
def initCore (chainId : String) : CoreState :=
  { clock := { current := 1, frozen := false }
    chain := { chainId := chainId, documents := [], lastHash := zeros64
               clock := { current := 1, frozen := false }
               detectedForks := [], forkCacheValid := false } }

/-- Render the built document without a signature field as the JSON object
whose canonical serialization is signed (field order is irrelevant: the
canonicalizer sorts). -/
def docJsonNoSig (d : Doc) : Json :=
  .obj (.cons "version" (.str d.version)
    (.cons "crypto_suite" (.str d.crypto_suite)
      (.cons "created_at" (.str d.created_at)
        (.cons "type" (.str d.type)
          (.cons "chain_id" (.str d.chain_id)
            (.cons "parent_hash" (.str d.parent_hash)
              (.cons "logical_time" (.num (Int.ofNat d.logical_time))
                (.cons "payload" d.payload
                  (.cons "id" (.str d.id) .nil)))))))))

/-- NewZoneCore.createDocument from src/core.ts, with the Ed25519 backend as
a parameter (`sign` maps the canonical bytes to the backend's signature
bytes) and the informational wall-clock timestamp as `createdAt`. Mirrors
the source order: facade clock tick, builder validation (the truthiness
check over required fields, then logical time and suite checks), id
derivation, canonicalization (sorting the payload's keys), canonical
serialization of the unsigned document, signing with the source's
`length === 0` rejection, then append. Error returns carry whatever
mutations had already happened, like the JS exceptions do. -/
def NewZoneCore.createDocument (sign : List Nat → List Nat) (createdAt : String)
    (st : CoreState) (type : String) (payload : Json) :
    Except Err Doc × CoreState :=
  match LogicalClock.tick st.clock with
  | .error e => (.error e, st)
  | .ok (logicalTime, clk) =>
      let st := { st with clock := clk }
      let parentHash := st.chain.lastHash
      let id := IdentityDerivation.deriveDocumentId st.chain.chainId parentHash logicalTime
      if st.chain.chainId = "" then
        (.error ⟨ERR_VALIDATION_FAILED, "Missing required field: chain_id"⟩, st)
      else if parentHash = "" then
        (.error ⟨ERR_VALIDATION_FAILED, "Missing required field: parent_hash"⟩, st)
      else if logicalTime = 0 then
        (.error ⟨ERR_VALIDATION_FAILED, "Missing required field: logical_time"⟩, st)
      else if type = "" then
        (.error ⟨ERR_VALIDATION_FAILED, "Missing required field: type"⟩, st)
      else
        let doc : Doc :=
          { type := type, version := DOCUMENT_VERSION, id := id
            chain_id := st.chain.chainId, parent_hash := parentHash
            logical_time := logicalTime, crypto_suite := CRYPTO_SUITE
            created_at := createdAt, payload := sortValue payload, signature := "" }
        let canonical := CanonicalJSON.serialize (docJsonNoSig doc)
        let signatureBytes := sign (utf8Bytes canonical)
        if signatureBytes.length = 0 then
          (.error ⟨ERR_INVALID_SIGNATURE, "Failed to generate signature - empty result"⟩, st)
        else
          let doc := { doc with signature := toHex signatureBytes }
          match st.chain.append doc with
          | (.error e, ch) => (.error e, { st with chain := ch })
          | (.ok _, ch) => (.ok doc, { st with chain := ch })

/-- Lookup of an object member: first match, like JS property access on an
object without duplicate keys (the parser and all JS-reachable objects have
none; on a duplicate list the first wins, which JS makes unrepresentable). -/
def lookupF (k : String) : JsonFields → Option Json
  | .nil => none
  | .cons k2 v t => if k2 = k then some v else lookupF k t

/-- JS property access `doc[field]` for the validator's field names:
objects look the member up; on every other value the named properties used
here are undefined. -/
def Json.getField (j : Json) (k : String) : Option Json :=
  match j with
  | .obj fs => lookupF k fs
  | _ => none

/-- JS truthiness of a value (NaN does not arise: numbers are integers). -/
def truthy : Json → Bool
  | .null => false
  | .bool b => b
  | .num n => n ≠ 0
  | .str s => s ≠ ""
  | .arr _ => true
  | .obj _ => true

/-- Truthiness of `doc[field]`, undefined being falsy. -/
def truthyField (j : Json) (k : String) : Bool :=
  match j.getField k with
  | some v => truthy v
  | none => false

mutual
/-- JS ToString coercion, to the extent the validator's interpolations and
the regex test need it (arrays join their elements with a comma, null
joining as empty; objects display as [object Object]). -/
def toJsStr : Json → String
  | .null => "null"
  | .bool true => "true"
  | .bool false => "false"
  | .num n => toString n
  | .str s => s
  | .arr xs => joinArr xs
  | .obj _ => "[object Object]"
def joinArr : JsonList → String
  | .nil => ""
  | .cons .null .nil => ""
  | .cons h .nil => toJsStr h
  | .cons .null (.cons h2 t) => "," ++ joinArr (.cons h2 t)
  | .cons h (.cons h2 t) => toJsStr h ++ "," ++ joinArr (.cons h2 t)
end

/-- Display of a possibly-missing field in a template literal. -/
def displayField (v : Option Json) : String :=
  match v with
  | none => "undefined"
  | some j => toJsStr j

/-- The validator's parent-hash pattern `^[0-9a-f]{64}$`. -/
def isHex64 (s : String) : Bool :=
  s.length = 64 &&
  s.data.all (fun c => (48 ≤ c.toNat ∧ c.toNat ≤ 57) ∨ (97 ≤ c.toNat ∧ c.toNat ≤ 102))

/-- fromHex from src/utils/encoding.ts: reject odd length, then decode each
pair with parseInt(_, 16) semantics followed by the Uint8Array store (a
NaN parse stores 0; a parse that stops after one digit keeps its value). -/
def hexPairVal (c1 c2 : Char) : Nat :=
  match hexDigitVal c1 with
  | none => 0
  | some v1 =>
      match hexDigitVal c2 with
      | none => v1
      | some v2 => 16 * v1 + v2

/-- Decode consecutive hex pairs. -/
def hexPairs : List Char → List Nat
  | c1 :: c2 :: rest => hexPairVal c1 c2 :: hexPairs rest
  | _ => []

/-- fromHex (throws on odd length). -/
def fromHex (s : String) : Except Err (List Nat) :=
  if s.length % 2 ≠ 0 then .error ⟨ERR_INVALID_KEY, "Invalid hex string length"⟩
  else .ok (hexPairs s.data)

/-- Spread into an object literal, `{...doc}`: objects keep their fields;
strings and arrays spread their indexed entries; primitives spread to
nothing. -/
def indexFieldsStr (i : Nat) : List Char → JsonFields
  | [] => .nil
  | c :: rest => .cons (toString i) (.str (String.mk [c])) (indexFieldsStr (i + 1) rest)

/-- Indexed entries of a spread array. -/
def indexFieldsArr (i : Nat) : JsonList → JsonFields
  | .nil => .nil
  | .cons h t => .cons (toString i) h (indexFieldsArr (i + 1) t)

/-- Fields produced by `{...v}`. -/
def spreadFields : Json → JsonFields
  | .obj fs => fs
  | .str s => indexFieldsStr 0 s.data
  | .arr xs => indexFieldsArr 0 xs
  | _ => .nil

/-- Remove every member with the given key (`delete obj.signature`; JS
objects hold at most one). -/
def filterOutKey (k : String) : JsonFields → JsonFields
  | .nil => .nil
  | .cons k2 v t => if k2 = k then filterOutKey k t else .cons k2 v (filterOutKey k t)

/-- The `{ ...doc }` copy with its `signature` member deleted, as built at
the start of the cryptographic layer and of prepareForSigning. -/
def stripSignature (doc : Json) : Json :=
  .obj (filterOutKey "signature" (spreadFields doc))

/-- Catch combinator: run the body, mapping a thrown error through the
handler (the JS `try { body } catch (e) { handler }`). -/
def tryE {α : Type} (body : Except Err α) (handler : Err → α) : α :=
  match body with
  | .ok a => a
  | .error e => handler e

/-- Validation context (src/types.ts): the current logical time and the
trusted public keys. The policy evaluator is passed alongside. -/
structure ValidationContext where
  currentTime : Nat := 0
  trustedKeys : List (List Nat) := []

/-- Validation result (src/types.ts). -/
structure ValidationResult where
  structural_valid : Bool := false
  cryptographic_valid : Bool := false
  policy_valid : Bool := false
  final : Bool := false
  errors : List String := []
  warnings : List String := []
deriving DecidableEq, Repr

/-- The required-field list of DocumentValidator.validateStructural. -/
def requiredFields : List String :=
  ["type", "version", "id", "chain_id", "parent_hash", "logical_time", "crypto_suite"]

/-- DocumentValidator.validateStructural from src/document/validator.ts:
returns the pass flag together with the errors pushed, in source order. -/
def DocumentValidator.validateStructural (doc : Json) : Bool × List String :=
  let missing := requiredFields.filterMap (fun f =>
    if truthyField doc f then none else some ("Missing required field: " ++ f))
  let ltErrs :=
    match doc.getField "logical_time" with
    | some (.num n) =>
        if n < 1 then ["logical_time MUST be >= 1, got " ++ toString n] else []
    | _ => ["logical_time must be a number"]
  let suiteErrs :=
    if doc.getField "crypto_suite" = some (.str CRYPTO_SUITE) then []
    else ["crypto_suite MUST be " ++ CRYPTO_SUITE ++ ", got " ++
      displayField (doc.getField "crypto_suite")]
  let verErrs :=
    if doc.getField "version" = some (.str DOCUMENT_VERSION) then []
    else ["version MUST be 1.0, got " ++ displayField (doc.getField "version")]
  let sigErrs := if truthyField doc "signature" then [] else ["Missing signature"]
  let phErrs :=
    match doc.getField "parent_hash" with
    | some v =>
        if truthy v ∧ ¬ isHex64 (toJsStr v) then
          ["parent_hash must be 64 character hex string"]
        else []
    | none => []
  let errs := missing ++ ltErrs ++ suiteErrs ++ verErrs ++ sigErrs ++ phErrs
  (errs.isEmpty, errs)

/-- Try each trusted key until Ed25519.verify succeeds; a throwing backend
is caught and the loop continues. -/
def tryKeys (verify : List Nat → List Nat → List Nat → Except String Bool)
    (sig data : List Nat) : List (List Nat) → Bool
  | [] => false
  | k :: ks =>
      match verify sig data k with
      | .ok true => true
      | _ => tryKeys verify sig data ks

/-- DocumentValidator.validateCryptographic from src/document/validator.ts,
with the Ed25519 backend as a parameter. Returns the layer flag with the
errors and warnings pushed. The source wraps the body in try/catch whose
handler records "Cryptographic validation error: ..."; the only step inside
it that can throw is the signature hex decode (the canonicality assertion
has its own inner catch), so that catch is the explicit error branch of the
decode. -/
def DocumentValidator.validateCryptographic
    (verify : List Nat → List Nat → List Nat → Except String Bool)
    (doc : Json) (ctx : ValidationContext) : Bool × List String × List String :=
  let canonical := CanonicalJSON.serialize (stripSignature doc)
  match CanonicalJSON.assertCanonical canonical with
  | .error _ => (false, ["Document is not canonical JSON"], [])
  | .ok _ =>
    if ¬ truthyField doc "signature" then (false, ["No signature provided"], [])
    else
      match (match doc.getField "signature" with
        | some (.str s) => fromHex s
        | _ => (.error ⟨ERR_INVALID_KEY, "Invalid hex string length"⟩ : Except Err (List Nat))) with
      | .error e => (false, ["Cryptographic validation error: " ++ e.msg], [])
      | .ok signature =>
        let data := utf8Bytes canonical
        if ctx.trustedKeys.isEmpty then
          (false, ["No trusted keys provided for verification"], [])
        else if ¬ tryKeys verify signature data ctx.trustedKeys then
          (false, ["Signature verification failed"], [])
        else
          let warns :=
            if ctx.currentTime ≠ 0 then
              match doc.getField "logical_time" with
              | some (.num n) =>
                  if n > (ctx.currentTime : Int) then
                    ["Document logical time (" ++ toString n ++ ") > current time (" ++
                      toString ctx.currentTime ++ ")"]
                  else []
              | _ => []
            else []
          (true, [], warns)

/-- DocumentValidator.validatePolicy: evaluate the supplied engine, catching
its exceptions; absent an engine, policy passes. -/
def DocumentValidator.validatePolicy (pol : Option (Json → Except String Bool))
    (doc : Json) : Bool × List String :=
  match pol with
  | none => (true, [])
  | some p =>
      match p doc with
      | .ok b => (b, [])
      | .error m => (false, ["Policy evaluation error: " ++ m])

/-- Finalization: final = structural AND cryptographic AND policy. -/
def finalizeR (r : ValidationResult) : ValidationResult :=
  { r with final := r.structural_valid && r.cryptographic_valid && r.policy_valid }

/-- The body of DocumentValidator.validate: the three layers in order, later
layers only on earlier success, results accumulated like the source's
`result` object. The Except layer carries any exception the body might
propagate to the outer catch. -/
def validateBody (verify : List Nat → List Nat → List Nat → Except String Bool)
    (pol : Option (Json → Except String Bool)) (doc : Json) (ctx : ValidationContext) :
    Except Err ValidationResult :=
  let (sOk, sErrs) := DocumentValidator.validateStructural doc
  let r0 : ValidationResult := { structural_valid := sOk, errors := sErrs }
  if ¬ sOk then .ok (finalizeR r0)
  else
    let (cOk, cErrs, cWarns) := DocumentValidator.validateCryptographic verify doc ctx
    let r1 := { r0 with
      cryptographic_valid := cOk,
      errors := r0.errors ++ cErrs,
      warnings := r0.warnings ++ cWarns }
    if ¬ cOk then .ok (finalizeR r1)
    else
      let (pOk, pErrs) := DocumentValidator.validatePolicy pol doc
      .ok (finalizeR { r1 with
        policy_valid := pOk,
        errors := r1.errors ++ pErrs })

/-- DocumentValidator.validate from src/document/validator.ts: the body
under the outer try/catch, whose handler pushes the caught message and
finalizes instead of rethrowing. -/
def DocumentValidator.validate (verify : List Nat → List Nat → List Nat → Except String Bool)
    (pol : Option (Json → Except String Bool)) (doc : Json) (ctx : ValidationContext) :
    Except Err ValidationResult :=
  match validateBody verify pol doc ctx with
  | .ok r => .ok r
  | .error e => .ok (finalizeR { errors := [e.msg] })

/-- The validation result itself (validate never yields the error branch;
this projection is what callers observe). -/
def DocumentValidator.run (verify : List Nat → List Nat → List Nat → Except String Bool)
    (pol : Option (Json → Except String Bool)) (doc : Json) (ctx : ValidationContext) :
    ValidationResult :=
  tryE (validateBody verify pol doc ctx) (fun e => finalizeR { errors := [e.msg] })

/-- NewZoneCore.verifyDocument from src/core.ts: delegate to the validator
with the identity's public key as the only trusted key and the facade
clock's current value as the context time. -/
def NewZoneCore.verifyDocument (verify : List Nat → List Nat → List Nat → Except String Bool)
    (pubKey : List Nat) (st : CoreState) (doc : Json) : ValidationResult :=
  DocumentValidator.run verify none doc
    { currentTime := st.clock.current, trustedKeys := [pubKey] }

/-- NewZoneCore.detectFork from src/core.ts: run the detector's scan over
the stored documents and stamp every entry with the facade clock's current
value and resolved = false. The scan itself (ForkDetector.scan) is a
parameter: whatever entries it returns, the facade stamps them. -/
def NewZoneCore.detectFork (scan : List Doc → List ForkInfo) (st : CoreState) :
    List ForkInfo :=
  (scan st.chain.documents).map (fun f =>
    { f with detectedAt := st.clock.current, resolved := false })

/-- Append a document to its parent's group, keeping first-seen parent
order (the Map in rebuildForkCache). -/
def groupAdd (m : List (String × List Doc)) (k : String) (d : Doc) :
    List (String × List Doc) :=
  match m with
  | [] => [(k, [d])]
  | e :: rest => if e.1 = k then (k, e.2 ++ [d]) :: rest else e :: groupAdd rest k d

/-- Group the stored documents by parent hash. -/
def groupByParent (docs : List Doc) : List (String × List Doc) :=
  docs.foldl (fun m d => groupAdd m d.parent_hash d) []

/-- Largest logical time in a group (Math.max over the children). -/
def maxTimeOf (children : List Doc) : Nat :=
  children.foldl (fun m d => max m d.logical_time) 0

/-- Private ChainStateManager#rebuildForkCache: clear the table and record a
fork entry, resolved = false, for every parent with more than one child. -/
def ChainMState.rebuildForkCache (st : ChainMState) : ChainMState :=
  let entries := (groupByParent st.documents).filterMap (fun e =>
    if 1 < e.2.length then
      some (e.1, ({ parentHash := e.1, documents := e.2.map (fun d => d.id)
                    detectedAt := maxTimeOf e.2, resolved := false } : ForkInfo))
    else none)
  { st with detectedForks := entries, forkCacheValid := true }

/-- The `forks` getter: rebuild the cache when invalid, then list the
entries (the getter mutates the cache, so the state is returned too). -/
def ChainMState.forksView (st : ChainMState) : List ForkInfo × ChainMState :=
  if st.forkCacheValid then (st.detectedForks.map (fun e => e.2), st)
  else
    let st2 := st.rebuildForkCache
    (st2.detectedForks.map (fun e => e.2), st2)

/-- Chain state snapshot (ChainState in src/types.ts). -/
structure ChainSnapshot where
  chainId : String
  lastHash : String
  logicalClock : Nat
  documentCount : Nat
  forks : List ForkInfo
deriving DecidableEq, Repr

/-- ChainStateManager.getState. -/
def ChainMState.getState (st : ChainMState) : ChainSnapshot × ChainMState :=
  let (fs, st2) := st.forksView
  ({ chainId := st.chainId, lastHash := st.lastHash, logicalClock := st.clock.current
     documentCount := st.documents.length, forks := fs }, st2)

/-- NewZoneCore.getChainState. -/
def NewZoneCore.getChainState (st : CoreState) : ChainSnapshot × CoreState :=
  let (snap, ch) := st.chain.getState
  (snap, { st with chain := ch })

/-- The structure serialized by ChainStateManager.export (the source encodes
it as UTF-8 JSON; the encoding is faithful and invertible on this data, so
the blob is modelled structurally). -/
structure ExportBlob where
  chainId : String
  lastHash : String
  clockVal : Nat
  documents : List (String × Doc)
  forks : List (String × ForkInfo)
deriving DecidableEq, Repr

/-- ChainStateManager.export. -/
def ChainMState.exportState (st : ChainMState) : ExportBlob :=
  { chainId := st.chainId, lastHash := st.lastHash, clockVal := st.clock.current
    documents := st.documents.map (fun d => (d.id, d)), forks := st.detectedForks }

/-- ChainStateManager.import: reject a chain-id mismatch, rebuild a manager
whose clock starts at the blob's value (the LogicalClock constructor
requires it to be at least 1) and whose documents and forks are copied
verbatim. -/
def ChainStateManager.import (blob : ExportBlob) (chainId : String) :
    Except Err ChainMState :=
  if blob.chainId ≠ chainId then
    .error ⟨ERR_VALIDATION_FAILED, "Chain ID mismatch during import"⟩
  else if blob.clockVal < 1 then
    .error ⟨ERR_LOGICAL_TIME_VIOLATION, "Logical time MUST start at >= 1"⟩
  else
    .ok { chainId := chainId, documents := blob.documents.map (fun e => e.2)
          lastHash := blob.lastHash, clock := { current := blob.clockVal, frozen := false }
          detectedForks := blob.forks, forkCacheValid := false }

/-- NewZoneCore.importState: install the imported manager and adopt its
clock as the facade clock (the source makes them the same object). -/
def NewZoneCore.importState (st : CoreState) (blob : ExportBlob) :
    Except Err Unit × CoreState :=
  match ChainStateManager.import blob st.chain.chainId with
  | .error e => (.error e, st)
  | .ok ch => (.ok (), { clock := ch.clock, chain := ch })

/-- Facade states reachable from a fresh facade by the core operations that
touch state: create_document (either outcome), a raw manager append (either
outcome), the chain-state snapshot (which rebuilds the fork cache), and the
importing of a blob exported from another reachable facade. verify_document,
detect_fork, export and the integrity check do not change state. -/
inductive ReachableCore : CoreState → Prop where
  | init (chainId : String) : ReachableCore (initCore chainId)
  | create (sign : List Nat → List Nat) (createdAt : String) (st : CoreState)
      (type : String) (payload : Json) : ReachableCore st →
      ReachableCore (NewZoneCore.createDocument sign createdAt st type payload).2
  | rawAppend (st : CoreState) (d : Doc) : ReachableCore st →
      ReachableCore { st with chain := (st.chain.append d).2 }
  | snapshot (st : CoreState) : ReachableCore st →
      ReachableCore (NewZoneCore.getChainState st).2
  | importBlob (src st : CoreState) : ReachableCore src → ReachableCore st →
      ReachableCore (NewZoneCore.importState st (src.chain.exportState)).2

/-- Chains built solely by successful create_document calls on a fresh
facade. The side condition on each step states that the freshly derived
document id does not collide with a stored id: distinct BLAKE2b inputs are
assumed not to collide within one chain (with a collision, Map.set would
overwrite the older document). -/
inductive CreatesOnly : CoreState → Prop where
  | init (chainId : String) : CreatesOnly (initCore chainId)
  | step (sign : List Nat → List Nat) (createdAt : String) (st : CoreState)
      (type : String) (payload : Json) (doc : Doc) (st2 : CoreState) :
      CreatesOnly st →
      NewZoneCore.createDocument sign createdAt st type payload = (.ok doc, st2) →
      doc.id ∉ st.chain.documents.map (fun d => d.id) →
      CreatesOnly st2

/-- UTF-8 encoding distributes over string append. -/
theorem utf8Bytes_append (a b : String) :
    utf8Bytes (a ++ b) = utf8Bytes a ++ utf8Bytes b := by
  simp [utf8Bytes, String.data_append]

/-- C5: for every chain id c, parent hash h and logical time t with
1 ≤ t ≤ 2^32 − 1, deriveDocumentId equals the lowercase hex of the first
32 bytes of BLAKE2b-256 over the domain prefix
"nzcore-nzcore-crypto-01-document" joined with ":", then the bytes of c,
the bytes of h, and t as a 32-bit little-endian integer — the derivation
written in spec section 4.3. -/
theorem deriveDocumentId_matches_spec (c h : String) (t : Nat)
    (h1 : 1 ≤ t) (h2 : t ≤ 2 ^ 32 - 1) :
    IdentityDerivation.deriveDocumentId c h t = specDocumentId c h t := by
  have ht : t % 2 ^ 32 = t := Nat.mod_eq_of_lt (by omega)
  have hdom : ("nzcore-" ++ CRYPTO_SUITE ++ "-document") =
      "nzcore-nzcore-crypto-01-document" := by decide
  unfold IdentityDerivation.deriveDocumentId specDocumentId Blake2b.hashWithDomain
  rw [utf8Bytes_append, hdom]
  simp only [u32leBytes, ht, KEY_LENGTHS_DOCUMENT_ID, List.append_assoc]

/-- C5 witness at a concrete input. -/
theorem deriveDocumentId_matches_spec_witness :
    (1 ≤ 7 ∧ 7 ≤ 2 ^ 32 - 1) ∧
    IdentityDerivation.deriveDocumentId "c" "p" 7 = specDocumentId "c" "p" 7 :=
  ⟨⟨by decide, by norm_num⟩,
   deriveDocumentId_matches_spec "c" "p" 7 (by decide) (by norm_num)⟩

/-- C10: deriveDocumentId is total and only depends on the logical time
modulo 2^32: the Uint32Array store silently truncates, so times that differ
by a multiple of 2^32 yield identical document ids. -/
theorem deriveDocumentId_truncates_mod32 (c h : String) (t : Nat) (h1 : 1 ≤ t) :
    IdentityDerivation.deriveDocumentId c h t =
      IdentityDerivation.deriveDocumentId c h (t % 2 ^ 32) := by
  unfold IdentityDerivation.deriveDocumentId
  simp [u32leBytes, Nat.mod_mod_of_dvd]

/-- C10 witness: a logical time beyond 2^32 collides with its reduction. -/
theorem deriveDocumentId_truncates_mod32_witness :
    1 ≤ 2 ^ 32 + 5 ∧
    IdentityDerivation.deriveDocumentId "c" "p" (2 ^ 32 + 5) =
      IdentityDerivation.deriveDocumentId "c" "p" ((2 ^ 32 + 5) % 2 ^ 32) :=
  ⟨by norm_num, deriveDocumentId_truncates_mod32 "c" "p" (2 ^ 32 + 5) (by norm_num)⟩

/-- C7: validate never propagates an exception: for every backend, policy
evaluator, document and context it returns a result. Failures of the inner
steps (canonicality assertion, hex decode, a throwing backend, a throwing
policy evaluator) are caught by the layer catches and the outer catch and
end up in the result's flags and errors. -/
theorem validate_never_throws
    (verify : List Nat → List Nat → List Nat → Except String Bool)
    (pol : Option (Json → Except String Bool)) (doc : Json) (ctx : ValidationContext) :
    ∃ r, DocumentValidator.validate verify pol doc ctx = .ok r := by
  unfold DocumentValidator.validate
  cases validateBody verify pol doc ctx with
  | ok r => exact ⟨r, rfl⟩
  | error e => exact ⟨_, rfl⟩

/-- A successful tick certifies the bound and describes the new state. -/
theorem tick_ok_iff (c : ClockState) (t : Nat) (c2 : ClockState)
    (h : LogicalClock.tick c = .ok (t, c2)) :
    c.frozen = false ∧ c.current < LOGICAL_TIME_MAX ∧
      t = c.current + 1 ∧ c2 = { current := c.current + 1, frozen := false } := by
  unfold LogicalClock.tick at h
  by_cases hf : c.frozen
  · simp [hf] at h
  · by_cases hm : LOGICAL_TIME_MAX ≤ c.current
    · simp [hf, hm] at h
    · simp [hf, hm] at h
      refine ⟨by simpa using hf, by omega, h.1.symm, ?_⟩
      rw [← h.2]

/-- Recording a fork does not touch the manager clock. -/
theorem recordFork_clock (st : ChainMState) (d : Doc) :
    (st.recordFork d).clock = st.clock := by
  unfold ChainMState.recordFork
  by_cases hE : (st.documents.filter (fun e => e.parent_hash = d.parent_hash)).isEmpty
  · simp [hE]
  · simp [hE]

/-- An unfrozen manager clock strictly below the bound ticks successfully. -/
theorem tick_ok_of_lt (c : ClockState) (hfr : c.frozen = false)
    (hlt : c.current < LOGICAL_TIME_MAX) :
    LogicalClock.tick c = .ok (c.current + 1, { current := c.current + 1, frozen := false }) := by
  unfold LogicalClock.tick
  simp [hfr, Nat.not_le.mpr hlt]

/-- Appending a document bearing the manager's chain id succeeds whenever
the manager clock is unfrozen and strictly below the bound. -/
theorem append_ok_of_clock (ch : ChainMState) (d : Doc)
    (hid : d.chain_id = ch.chainId) (hfr : ch.clock.frozen = false)
    (hlt : ch.clock.current < LOGICAL_TIME_MAX) :
    ∃ ch2, ch.append d = (.ok (), ch2) := by
  unfold ChainMState.append
  rw [if_neg (by simp [hid])]
  by_cases hp : d.parent_hash ≠ ch.lastHash
  · simp only [if_pos hp, recordFork_clock,
      tick_ok_of_lt ch.clock hfr hlt]
    exact ⟨_, rfl⟩
  · simp only [if_neg hp, tick_ok_of_lt ch.clock hfr hlt]
    exact ⟨_, rfl⟩

/-- Under the facade clock conditions, append cannot raise. -/
theorem append_error_impossible (ch : ChainMState) (d : Doc) (e : Err)
    (ch2 : ChainMState) (heq : ch.append d = (.error e, ch2))
    (hid : d.chain_id = ch.chainId) (hfr : ch.clock.frozen = false)
    (hlt : ch.clock.current < LOGICAL_TIME_MAX) : False := by
  obtain ⟨ch3, happ⟩ := append_ok_of_clock ch d hid hfr hlt
  rw [happ] at heq
  cases heq

/-- C3: a create_document invocation that raises at the clock tick, the
build checks, canonicalization or signing leaves the chain state manager —
documents, last hash, detected forks and the chain's logical clock —
exactly as before. The hypotheses state the facade invariant that holds for
every facade built by create: the manager clock is never frozen and never
ahead of the facade clock (so the append step, which runs only after all
fallible steps, cannot fail either, and the error cases are exactly the
enumerated ones). -/
theorem createDocument_error_preserves_chain
    (sign : List Nat → List Nat) (ca : String) (st : CoreState) (ty : String)
    (pl : Json) (e : Err) (st2 : CoreState)
    (hfr : st.chain.clock.frozen = false)
    (hle : st.chain.clock.current ≤ st.clock.current)
    (h : NewZoneCore.createDocument sign ca st ty pl = (.error e, st2)) :
    st2.chain = st.chain := by
  unfold NewZoneCore.createDocument at h
  cases htick : LogicalClock.tick st.clock with
  | error e2 =>
      rw [htick] at h
      cases h
      rfl
  | ok p =>
      obtain ⟨t, clk⟩ := p
      obtain ⟨hf2, hlt, ht, hclk⟩ := tick_ok_iff _ _ _ htick
      rw [htick] at h
      simp only at h
      split at h
      · cases h; rfl
      · split at h
        · cases h; rfl
        · split at h
          · cases h; rfl
          · split at h
            · cases h; rfl
            · split at h
              · cases h; rfl
              · split at h
                · next e3 ch heq =>
                    exact (append_error_impossible _ _ _ _ heq rfl hfr (by omega)).elim
                · next doc2 ch heq => cases h

/-- C3 witness: on a fresh facade, a create_document call failing at the
build step (empty type) leaves the chain state untouched. -/
theorem createDocument_error_preserves_chain_witness :
    ((initCore "c").chain.clock.frozen = false ∧
      (initCore "c").chain.clock.current ≤ (initCore "c").clock.current) ∧
    (NewZoneCore.createDocument (fun _ => [])
        "2026-02-20T00:00:00.000Z" (initCore "c") "" (Json.obj .nil)).2.chain =
      (initCore "c").chain :=
  ⟨⟨rfl, Nat.le_refl 1⟩,
   createDocument_error_preserves_chain (fun _ => []) "2026-02-20T00:00:00.000Z"
     (initCore "c") "" (Json.obj .nil)
     ⟨ERR_VALIDATION_FAILED, "Missing required field: type"⟩
     ⟨⟨2, false⟩, (initCore "c").chain⟩ rfl (Nat.le_refl 1) rfl⟩

/-- C4: evaluation of createDocument at the failing input. With an Ed25519
backend returning a 32-byte value — non-empty but not 64 bytes —
createDocument does not raise InvalidSignature: it succeeds, stores a
64-hex-character signature (the hex of 32 bytes) and appends the document.
The source (src/core.ts) checks only `signatureBytes.length === 0`, while
spec section 4.1 requires anything other than 64 bytes to fail. -/
theorem createDocument_accepts_non64_signature :
    ((NewZoneCore.createDocument (fun _ => List.replicate 32 1)
        "2026-02-20T00:00:00.000Z" (initCore "c") "test" (Json.obj .nil)).1.toOption.map
          (fun d => d.signature.length) = some 64) ∧
    (NewZoneCore.createDocument (fun _ => List.replicate 32 1)
        "2026-02-20T00:00:00.000Z" (initCore "c") "test"
          (Json.obj .nil)).2.chain.documents.length = 1 := by
  constructor
  · rfl
  · rfl

/-- Shape of a successful createDocument: the document fields and the
resulting state, read off the source's success path (the parent is the
previous last hash, the id is the section-4.3 derivation at the ticked
facade time, the manager stores the document and advances its clock). -/
theorem createDocument_ok_shape
    (sign : List Nat → List Nat) (ca : String) (st : CoreState) (ty : String)
    (pl : Json) (doc : Doc) (st2 : CoreState)
    (h : NewZoneCore.createDocument sign ca st ty pl = (.ok doc, st2)) :
    doc.parent_hash = st.chain.lastHash ∧
    doc.chain_id = st.chain.chainId ∧
    doc.logical_time = st.clock.current + 1 ∧
    doc.id = IdentityDerivation.deriveDocumentId st.chain.chainId st.chain.lastHash
      (st.clock.current + 1) ∧
    st2.clock = { current := st.clock.current + 1, frozen := false } ∧
    st2.chain = { st.chain with
      documents := setById st.chain.documents doc
      lastHash := doc.id
      forkCacheValid := false
      clock := { current := st.chain.clock.current + 1, frozen := false } } := by
  unfold NewZoneCore.createDocument at h
  cases htick : LogicalClock.tick st.clock with
  | error e2 => rw [htick] at h; cases h
  | ok p =>
      obtain ⟨t, clk⟩ := p
      obtain ⟨hf2, hlt, ht, hclk⟩ := tick_ok_iff _ _ _ htick
      rw [htick] at h
      simp only at h
      split at h
      · cases h
      · split at h
        · cases h
        · split at h
          · cases h
          · split at h
            · cases h
            · split at h
              · cases h
              · split at h
                · next e3 ch heq => cases h
                · next u ch heq =>
                    cases h
                    unfold ChainMState.append at heq
                    rw [if_neg (by simp)] at heq
                    rw [if_neg (by simp)] at heq
                    simp only at heq
                    cases htick2 : LogicalClock.tick st.chain.clock with
                    | error e4 => rw [htick2] at heq; cases heq
                    | ok p2 =>
                        obtain ⟨t2, clk2⟩ := p2
                        obtain ⟨hg2, hglt, hgt, hgclk⟩ := tick_ok_iff _ _ _ htick2
                        rw [htick2] at heq
                        cases heq
                        subst ht hclk hgt hgclk
                        refine ⟨rfl, rfl, rfl, rfl, rfl, rfl⟩

/-- A well-formed creation chain: consecutive documents link by parent
hash, every id is the section-4.3 derivation of its own chain id, parent
and time, and logical times strictly increase. -/
inductive Chained : String → Nat → List Doc → Prop where
  | nil (prev : String) (t : Nat) : Chained prev t []
  | cons (prev : String) (t : Nat) (d : Doc) (rest : List Doc)
      (hp : d.parent_hash = prev)
      (hid : d.id = IdentityDerivation.deriveDocumentId d.chain_id prev d.logical_time)
      (ht : t < d.logical_time)
      (hrest : Chained d.id d.logical_time rest) :
      Chained prev t (d :: rest)

/-- Id of the last document, or the seed when the chain is empty. -/
def lastIdOf (s : String) (docs : List Doc) : String :=
  docs.foldl (fun _ d => d.id) s

/-- Logical time of the last document, or the seed time. -/
def lastTimeOf (t : Nat) (docs : List Doc) : Nat :=
  docs.foldl (fun _ d => d.logical_time) t

/-- Invariant carried along a creates-only run: the stored documents form a
well-formed chain from the zero hash, the last-hash pointer is the last id,
and all stored times are bounded by the facade clock. -/
def CreateInv (st : CoreState) : Prop :=
  Chained zeros64 0 st.chain.documents ∧
  st.chain.lastHash = lastIdOf zeros64 st.chain.documents ∧
  lastTimeOf 0 st.chain.documents ≤ st.clock.current

/-- A fresh id appends at the end of the insertion-ordered map. -/
theorem setById_eq_append (docs : List Doc) (d : Doc)
    (h : d.id ∉ docs.map (fun e => e.id)) : setById docs d = docs ++ [d] := by
  induction docs with
  | nil => rfl
  | cons e rest ih =>
      simp only [List.map_cons, List.mem_cons] at h
      push_neg at h
      unfold setById
      rw [if_neg (fun he => h.1 he.symm)]
      rw [ih h.2]
      simp

/-- foldl-style last id of an extended chain. -/
theorem lastIdOf_append (s : String) (docs : List Doc) (d : Doc) :
    lastIdOf s (docs ++ [d]) = d.id := by
  simp [lastIdOf, List.foldl_append]

/-- foldl-style last time of an extended chain. -/
theorem lastTimeOf_append (t : Nat) (docs : List Doc) (d : Doc) :
    lastTimeOf t (docs ++ [d]) = d.logical_time := by
  simp [lastTimeOf, List.foldl_append]

/-- Extending a well-formed chain with a correctly derived, later document
keeps it well-formed. -/
theorem Chained.snoc (p : String) (t : Nat) (docs : List Doc) (d : Doc)
    (h : Chained p t docs)
    (hp : d.parent_hash = lastIdOf p docs)
    (hid : d.id = IdentityDerivation.deriveDocumentId d.chain_id d.parent_hash d.logical_time)
    (ht : lastTimeOf t docs < d.logical_time) :
    Chained p t (docs ++ [d]) := by
  induction h with
  | nil p0 t0 =>
      simp only [List.nil_append]
      have hp2 : d.parent_hash = p0 := by simpa [lastIdOf] using hp
      exact Chained.cons p0 t0 d [] hp2
        (by rw [hid, hp2])
        (by simpa [lastTimeOf] using ht)
        (Chained.nil d.id d.logical_time)
  | cons p0 t0 e rest hpe hide hte hrest ih =>
      simp only [List.cons_append]
      exact Chained.cons p0 t0 e (rest ++ [d]) hpe hide hte
        (ih (by simpa [lastIdOf] using hp) (by simpa [lastTimeOf] using ht))

/-- Every creates-only reachable state satisfies the chain invariant. -/
theorem createsOnly_inv (st : CoreState) (h : CreatesOnly st) : CreateInv st := by
  induction h with
  | init chainId =>
      exact ⟨Chained.nil zeros64 0, rfl, by simp [initCore, lastTimeOf]⟩
  | step sign ca st0 ty pl doc st2 _ heq hfresh ih =>
      obtain ⟨hinv1, hinv2, hinv3⟩ := ih
      obtain ⟨hph, hcid, hlt, hid, hclk, hch⟩ := createDocument_ok_shape _ _ _ _ _ _ _ heq
      have hdocs : st2.chain.documents = st0.chain.documents ++ [doc] := by
        rw [hch]
        exact setById_eq_append _ _ hfresh
      refine ⟨?_, ?_, ?_⟩
      · rw [hdocs]
        exact Chained.snoc _ _ _ _ hinv1 (by rw [hph, hinv2])
          (by rw [hid, hph, hcid, hlt]) (by omega)
      · rw [hch]
        simp only
        rw [setById_eq_append _ _ hfresh, lastIdOf_append]
      · rw [hdocs, lastTimeOf_append, hclk]
        show doc.logical_time ≤ st0.clock.current + 1
        omega

/-- All documents of a well-formed chain have times above the seed. -/
theorem Chained.time_lt (p : String) (t : Nat) (docs : List Doc)
    (h : Chained p t docs) : ∀ d ∈ docs, t < d.logical_time := by
  induction h with
  | nil p0 t0 => intro d hd; cases hd
  | cons p0 t0 e rest hpe hide hte hrest ih =>
      intro d hd
      rcases List.mem_cons.mp hd with h1 | h2
      · subst h1; exact hte
      · have := ih d h2
        omega

/-- A well-formed chain is already sorted: the stable sort by logical time
returns it unchanged. -/
theorem sortByTime_of_chained (p : String) (t : Nat) (docs : List Doc)
    (h : Chained p t docs) : sortByTime docs = docs := by
  induction h with
  | nil p0 t0 => rfl
  | cons p0 t0 e rest hpe hide hte hrest ih =>
      unfold sortByTime
      rw [ih]
      cases rest with
      | nil => rfl
      | cons f rest2 =>
          have hf : e.logical_time < f.logical_time :=
            Chained.time_lt _ _ _ hrest f (List.mem_cons_self f rest2)
          unfold insertByTime
          rw [if_neg (by omega)]

/-- The integrity walk accepts every well-formed chain (the recomputed hash
is the same section-4.3 derivation the ids were built with). -/
theorem integrityWalk_of_chained (p : String) (t : Nat) (docs : List Doc)
    (h : Chained p t docs) : integrityWalk p docs = true := by
  induction h with
  | nil p0 t0 => rfl
  | cons p0 t0 e rest hpe hide hte hrest ih =>
      unfold integrityWalk
      rw [if_neg (by simp [hpe])]
      rw [if_neg ?_]
      · exact ih
      · unfold Blake2b.computeDocumentHash
        simp only [hpe]
        rw [← hide]
        simp

/-- C1: a chain produced solely by successful create_document calls on a
fresh facade passes verify_integrity, the id recomputation being the
section-4.3 domain-separated derivation used at creation (reason:
spec-modelled computeDocumentHash). -/
theorem verifyIntegrity_of_creates (st : CoreState) (h : CreatesOnly st) :
    st.chain.verifyIntegrity = true := by
  obtain ⟨hch, _, _⟩ := createsOnly_inv st h
  unfold ChainMState.verifyIntegrity
  rw [sortByTime_of_chained _ _ _ hch]
  exact integrityWalk_of_chained _ _ _ hch

/-- C1 witness: the fresh facade itself is a creates-only state and passes
integrity verification. -/
theorem verifyIntegrity_of_creates_witness :
    (initCore "c").chain.verifyIntegrity = true :=
  verifyIntegrity_of_creates (initCore "c") (CreatesOnly.init "c")

/-- Placeholder document for out-of-range list reads. -/
def dummyDoc : Doc :=
  { type := "", version := "", id := "", chain_id := "", parent_hash := ""
    logical_time := 0, crypto_suite := "", created_at := "", payload := .null
    signature := "" }

/-- Hash linkage along a well-formed chain: the first document points at the
seed and every later document points at its predecessor's id. -/
theorem Chained.linkage (p : String) (t : Nat) (docs : List Doc)
    (h : Chained p t docs) :
    (0 < docs.length → (docs.getD 0 dummyDoc).parent_hash = p) ∧
    (∀ i, i + 1 < docs.length →
      (docs.getD (i + 1) dummyDoc).parent_hash = (docs.getD i dummyDoc).id) := by
  induction h with
  | nil p0 t0 => exact ⟨fun hc => absurd hc (by simp), fun i hi => absurd hi (by simp)⟩
  | cons p0 t0 d rest hp hid ht hrest ih =>
      constructor
      · intro _
        simpa using hp
      · intro i hi
        cases i with
        | zero =>
            have hlen : 0 < rest.length := by simpa using hi
            simpa using ih.1 hlen
        | succ j =>
            have hlen : j + 1 < rest.length := by simpa using hi
            simpa using ih.2 j hlen

/-- C6: on a chain built only by successful create_document calls, the
first document's parent hash is the 64-character all-zero string and each
later document's parent hash equals the previous document's id (documents
in creation order). -/
theorem hash_linkage_of_creates (st : CoreState) (h : CreatesOnly st) :
    (0 < st.chain.documents.length →
      (st.chain.documents.getD 0 dummyDoc).parent_hash = zeros64) ∧
    (∀ i, i + 1 < st.chain.documents.length →
      (st.chain.documents.getD (i + 1) dummyDoc).parent_hash =
        (st.chain.documents.getD i dummyDoc).id) := by
  obtain ⟨hch, _, _⟩ := createsOnly_inv st h
  exact Chained.linkage _ _ _ hch

/-- C6 witness at the fresh facade (a creates-only state). -/
theorem hash_linkage_of_creates_witness :
    (0 < (initCore "c").chain.documents.length →
      ((initCore "c").chain.documents.getD 0 dummyDoc).parent_hash = zeros64) ∧
    (∀ i, i + 1 < (initCore "c").chain.documents.length →
      ((initCore "c").chain.documents.getD (i + 1) dummyDoc).parent_hash =
        ((initCore "c").chain.documents.getD i dummyDoc).id) :=
  hash_linkage_of_creates (initCore "c") (CreatesOnly.init "c")

/-- Membership after an assoc-map set: old entry or the new one. -/
theorem setForkEntry_mem (m : List (String × ForkInfo)) (k : String) (f : ForkInfo)
    (e : String × ForkInfo) (h : e ∈ setForkEntry m k f) : e ∈ m ∨ e = (k, f) := by
  induction m with
  | nil =>
      simp only [setForkEntry, List.mem_singleton] at h
      exact Or.inr h
  | cons g rest ih =>
      unfold setForkEntry at h
      split at h
      · rcases List.mem_cons.mp h with h1 | h2
        · exact Or.inr h1
        · exact Or.inl (List.mem_cons_of_mem g h2)
      · rcases List.mem_cons.mp h with h1 | h2
        · exact Or.inl (h1 ▸ List.mem_cons_self g rest)
        · rcases ih h2 with h3 | h4
          · exact Or.inl (List.mem_cons_of_mem g h3)
          · exact Or.inr h4

/-- The per-append fork recorder only stores unresolved entries. -/
theorem recordFork_forks_unresolved (ch : ChainMState) (d : Doc)
    (hinv : ∀ e ∈ ch.detectedForks, e.2.resolved = false) :
    ∀ e ∈ (ch.recordFork d).detectedForks, e.2.resolved = false := by
  unfold ChainMState.recordFork
  by_cases hE : (ch.documents.filter (fun e => e.parent_hash = d.parent_hash)).isEmpty
  · simpa [hE] using hinv
  · simp only [hE, Bool.false_eq_true, if_false]
    intro e he
    rcases setForkEntry_mem _ _ _ _ he with h1 | h2
    · exact hinv e h1
    · rw [h2]

/-- Append only stores unresolved fork entries. -/
theorem append_forks_unresolved (ch : ChainMState) (d : Doc)
    (hinv : ∀ e ∈ ch.detectedForks, e.2.resolved = false) :
    ∀ e ∈ (ch.append d).2.detectedForks, e.2.resolved = false := by
  unfold ChainMState.append
  by_cases hc : d.chain_id ≠ ch.chainId
  · simpa [hc] using hinv
  · rw [if_neg hc]
    have hmid : ∀ e ∈ (if d.parent_hash ≠ ch.lastHash then ch.recordFork d
        else ch).detectedForks, e.2.resolved = false := by
      by_cases hp : d.parent_hash ≠ ch.lastHash
      · simpa [hp] using recordFork_forks_unresolved ch d hinv
      · simpa [hp] using hinv
    simp only
    split
    · simpa using hmid
    · simpa using hmid

/-- The rebuilt fork cache holds only unresolved entries. -/
theorem rebuild_forks_unresolved (ch : ChainMState) :
    ∀ e ∈ ch.rebuildForkCache.detectedForks, e.2.resolved = false := by
  unfold ChainMState.rebuildForkCache
  intro e he
  simp only at he
  rw [List.mem_filterMap] at he
  obtain ⟨a, _, ha⟩ := he
  by_cases h1 : 1 < a.2.length
  · rw [if_pos h1] at ha
    cases ha
    rfl
  · rw [if_neg h1] at ha
    cases ha

/-- Equation-oriented form of the append fork lemma. -/
theorem append_snd_forks_unresolved (ch ch2 : ChainMState) (d : Doc)
    (r : Except Err Unit) (heq : ch.append d = (r, ch2))
    (hinv : ∀ e ∈ ch.detectedForks, e.2.resolved = false) :
    ∀ e ∈ ch2.detectedForks, e.2.resolved = false := by
  intro e he
  exact append_forks_unresolved ch d hinv e (by rw [heq]; exact he)

/-- create_document, in either outcome, only stores unresolved entries. -/
theorem createDocument_forks_unresolved (sign : List Nat → List Nat) (ca : String)
    (st : CoreState) (ty : String) (pl : Json)
    (hinv : ∀ e ∈ st.chain.detectedForks, e.2.resolved = false) :
    ∀ e ∈ (NewZoneCore.createDocument sign ca st ty pl).2.chain.detectedForks,
      e.2.resolved = false := by
  unfold NewZoneCore.createDocument
  cases htick : LogicalClock.tick st.clock with
  | error e2 => simpa using hinv
  | ok p =>
      obtain ⟨t, clk⟩ := p
      simp only
      split
      · simpa using hinv
      · split
        · simpa using hinv
        · split
          · simpa using hinv
          · split
            · simpa using hinv
            · split
              · simpa using hinv
              · split
                · next e3 ch heq =>
                    intro e he
                    exact append_snd_forks_unresolved st.chain ch _ _ heq hinv e
                      (by simpa using he)
                · next u ch heq =>
                    intro e he
                    exact append_snd_forks_unresolved st.chain ch _ _ heq hinv e
                      (by simpa using he)

/-- The chain-state snapshot (which may rebuild the fork cache) only stores
unresolved entries. -/
theorem getChainState_forks_unresolved (st : CoreState)
    (hinv : ∀ e ∈ st.chain.detectedForks, e.2.resolved = false) :
    ∀ e ∈ (NewZoneCore.getChainState st).2.chain.detectedForks, e.2.resolved = false := by
  unfold NewZoneCore.getChainState ChainMState.getState ChainMState.forksView
  by_cases hv : st.chain.forkCacheValid
  · simpa [hv] using hinv
  · simpa [hv] using rebuild_forks_unresolved st.chain

/-- Invariant for reachable states: every reachable facade state stores only
unresolved fork entries. -/
theorem reachable_forks_unresolved (st : CoreState) (h : ReachableCore st) :
    ∀ e ∈ st.chain.detectedForks, e.2.resolved = false := by
  induction h with
  | init chainId => intro e he; simp [initCore] at he
  | create sign ca st0 ty pl _ ih => exact createDocument_forks_unresolved _ _ _ _ _ ih
  | rawAppend st0 d _ ih => exact append_forks_unresolved st0.chain d ih
  | snapshot st0 _ ih => exact getChainState_forks_unresolved st0 ih
  | importBlob src st0 _ _ ihsrc ihst =>
      unfold NewZoneCore.importState ChainStateManager.import ChainMState.exportState
      by_cases hc : src.chain.chainId ≠ st0.chain.chainId
      · simpa [hc] using ihst
      · by_cases hl : src.chain.clock.current < 1
        · simp only [hc, hl]
          simpa using ihst
        · simp only [hc, hl]
          simpa using ihsrc

/-- C8: along every reachable sequence of core operations, no fork entry is
ever given resolved = true: the stored fork table, the entries returned by
detect_fork (for any scan), and the snapshot's fork list are all
unresolved. -/
theorem no_fork_autoresolution (st : CoreState) (h : ReachableCore st) :
    (∀ e ∈ st.chain.detectedForks, e.2.resolved = false) ∧
    (∀ scan : List Doc → List ForkInfo, ∀ fi ∈ NewZoneCore.detectFork scan st,
      fi.resolved = false) ∧
    (∀ fi ∈ (NewZoneCore.getChainState st).1.forks, fi.resolved = false) := by
  have hinv := reachable_forks_unresolved st h
  refine ⟨hinv, ?_, ?_⟩
  · intro scan fi hfi
    unfold NewZoneCore.detectFork at hfi
    rw [List.mem_map] at hfi
    obtain ⟨f0, _, hf0⟩ := hfi
    rw [← hf0]
  · intro fi hfi
    unfold NewZoneCore.getChainState ChainMState.getState ChainMState.forksView at hfi
    by_cases hv : st.chain.forkCacheValid
    · simp only [hv, if_true] at hfi
      rw [List.mem_map] at hfi
      obtain ⟨e, he, hfe⟩ := hfi
      rw [← hfe]
      exact hinv e he
    · simp only [hv, Bool.false_eq_true, if_false] at hfi
      rw [List.mem_map] at hfi
      obtain ⟨e, he, hfe⟩ := hfi
      rw [← hfe]
      exact rebuild_forks_unresolved st.chain e he

/-- C8 witness at the fresh facade (a reachable state). -/
theorem no_fork_autoresolution_witness :
    (∀ e ∈ (initCore "c").chain.detectedForks, e.2.resolved = false) ∧
    (∀ scan : List Doc → List ForkInfo,
      ∀ fi ∈ NewZoneCore.detectFork scan (initCore "c"), fi.resolved = false) ∧
    (∀ fi ∈ (NewZoneCore.getChainState (initCore "c")).1.forks, fi.resolved = false) :=
  no_fork_autoresolution (initCore "c") (ReachableCore.init "c")

/-- Structurally valid document whose signature hex has odd length. -/
def oddSigDoc : Json :=
  .obj (.cons "type" (.str "test")
    (.cons "version" (.str "1.0")
      (.cons "id" (.str "ab")
        (.cons "chain_id" (.str "ab")
          (.cons "parent_hash" (.str zeros64)
            (.cons "logical_time" (.num 2)
              (.cons "crypto_suite" (.str "nzcore-crypto-01")
                (.cons "signature" (.str "abc") .nil))))))))

/-- C9 counterexample: with no trusted keys, a structurally valid document
whose signature field does not hex-decode (odd length) fails the
cryptographic layer with the hex-decode error, not with the
"No trusted keys provided for verification" error the claim asserts for
every document: the decode runs before the trusted-keys check. -/
theorem no_trusted_keys_error_not_always_recorded :
    (DocumentValidator.run (fun _ _ _ => .ok true) none oddSigDoc
      { currentTime := 0, trustedKeys := [] }).cryptographic_valid = false ∧
    "No trusted keys provided for verification" ∉
      (DocumentValidator.run (fun _ _ _ => .ok true) none oddSigDoc
        { currentTime := 0, trustedKeys := [] }).errors := by
  constructor
  · decide
  · decide

/-- Structural success forces a truthy signature field. -/
theorem structural_ok_truthy_signature (doc : Json)
    (h : (DocumentValidator.validateStructural doc).1 = true) :
    truthyField doc "signature" = true := by
  unfold DocumentValidator.validateStructural at h
  simp only [List.isEmpty_iff, List.append_eq_nil] at h
  by_cases hs : truthyField doc "signature"
  · exact hs
  · simp [hs] at h

/-- Structural success means the error list is empty. -/
theorem structural_ok_shape (doc : Json)
    (h : (DocumentValidator.validateStructural doc).1 = true) :
    DocumentValidator.validateStructural doc = (true, []) := by
  unfold DocumentValidator.validateStructural at h ⊢
  simp only [List.isEmpty_iff] at h
  simp only [h, List.isEmpty_nil]

/-- C9 amended: for a structurally valid document whose signature field is a
hex-decodable string (even length) and whose canonical re-serialization
passes the canonicality assertion, an empty trusted-keys context fails the
cryptographic layer with cryptographic_valid = false, final = false and the
error "No trusted keys provided for verification" recorded, and no
signature verification is attempted (the result is the same for every
backend). -/
theorem empty_trusted_keys_rejected
    (verify verify2 : List Nat → List Nat → List Nat → Except String Bool)
    (pol : Option (Json → Except String Bool)) (doc : Json) (curT : Nat)
    (hstruct : (DocumentValidator.validateStructural doc).1 = true)
    (hsig : ∃ s, doc.getField "signature" = some (.str s) ∧ s.length % 2 = 0)
    (hcanon : CanonicalJSON.isCanonical
      (CanonicalJSON.serialize (stripSignature doc)) = true) :
    (DocumentValidator.run verify pol doc
      { currentTime := curT, trustedKeys := [] }).cryptographic_valid = false ∧
    (DocumentValidator.run verify pol doc
      { currentTime := curT, trustedKeys := [] }).final = false ∧
    "No trusted keys provided for verification" ∈
      (DocumentValidator.run verify pol doc
        { currentTime := curT, trustedKeys := [] }).errors ∧
    DocumentValidator.run verify2 pol doc { currentTime := curT, trustedKeys := [] } =
      DocumentValidator.run verify pol doc { currentTime := curT, trustedKeys := [] } := by
  obtain ⟨s, hgf, heven⟩ := hsig
  have hts := structural_ok_truthy_signature doc hstruct
  have hsv := structural_ok_shape doc hstruct
  have hac : CanonicalJSON.assertCanonical
      (CanonicalJSON.serialize (stripSignature doc)) = .ok () := by
    unfold CanonicalJSON.isCanonical at hcanon
    cases hax : CanonicalJSON.assertCanonical
        (CanonicalJSON.serialize (stripSignature doc)) with
    | error e => rw [hax] at hcanon; simp [Except.toBool] at hcanon
    | ok u => cases u; rfl
  have hc : ∀ v : List Nat → List Nat → List Nat → Except String Bool,
      DocumentValidator.validateCryptographic v doc
        { currentTime := curT, trustedKeys := [] } =
      (false, ["No trusted keys provided for verification"], []) := by
    intro v
    unfold DocumentValidator.validateCryptographic
    simp only
    rw [hac]
    simp only [hts, Bool.not_true, Bool.false_eq_true, if_false, ite_false]
    rw [hgf]
    unfold fromHex
    simp [heven]
  have hrun : ∀ v : List Nat → List Nat → List Nat → Except String Bool,
      DocumentValidator.run v pol doc { currentTime := curT, trustedKeys := [] } =
      { structural_valid := true, cryptographic_valid := false, policy_valid := false
        final := false, errors := ["No trusted keys provided for verification"]
        warnings := [] } := by
    intro v
    unfold DocumentValidator.run validateBody
    rw [hsv, hc v]
    rfl
  rw [hrun verify, hrun verify2]
  exact ⟨rfl, rfl, by simp, rfl⟩

/-- A structurally valid document with an even-length signature, its keys
deliberately not in canonical order. -/
def evenSigDoc : Json :=
  .obj (.cons "type" (.str "test")
    (.cons "version" (.str "1.0")
      (.cons "id" (.str "ab")
        (.cons "chain_id" (.str "ab")
          (.cons "parent_hash" (.str zeros64)
            (.cons "logical_time" (.num 2)
              (.cons "crypto_suite" (.str "nzcore-crypto-01")
                (.cons "signature" (.str "abab") .nil))))))))

/-- C9 witness: the amended statement evaluated at a concrete document. -/
theorem empty_trusted_keys_rejected_witness :
    ((DocumentValidator.validateStructural evenSigDoc).1 = true ∧
      CanonicalJSON.isCanonical
        (CanonicalJSON.serialize (stripSignature evenSigDoc)) = true) ∧
    "No trusted keys provided for verification" ∈
      (DocumentValidator.run (fun _ _ _ => .ok false) none evenSigDoc
        { currentTime := 0, trustedKeys := [] }).errors :=
  ⟨⟨by decide, by decide⟩,
   (empty_trusted_keys_rejected (fun _ _ _ => .ok false) (fun _ _ _ => .ok false)
     none evenSigDoc 0 (by decide) ⟨"abab", by decide, by decide⟩ (by decide)).2.2.1⟩

/-- Strict lexicographic order is irreflexive. -/
theorem lexLt_irrefl (a : List Nat) : lexLt a a = false := by
  induction a with
  | nil => rfl
  | cons x xs ih => simp [lexLt, ih]

/-- Strict lexicographic order is asymmetric. -/
theorem lexLt_asymm (a b : List Nat) (h : lexLt a b = true) : lexLt b a = false := by
  induction a generalizing b with
  | nil =>
      cases b with
      | nil => simp [lexLt] at h
      | cons y ys => rfl
  | cons x xs ih =>
      cases b with
      | nil => simp [lexLt] at h
      | cons y ys =>
          simp only [lexLt] at h ⊢
          rcases Nat.lt_trichotomy x y with hxy | hxy | hxy
          · rw [if_neg (by omega), if_pos hxy]
          · subst hxy
            rw [if_neg (by omega), if_neg (by omega)] at h ⊢
            exact ih ys h
          · rw [if_neg (by omega), if_pos hxy] at h
            cases h

/-- Lookup after a sorted insert: the inserted key is found (it lands before
every equal key), other keys are untouched. -/
theorem lookup_insertField (k k2 : String) (v : Json) :
    (gs : JsonFields) →
      lookupF k (insertField k2 v gs) = if k2 = k then some v else lookupF k gs
  | .nil => by simp [insertField, lookupF]
  | .cons k3 v3 t => by
      unfold insertField
      by_cases hlt : lexLt (utf16Units k3) (utf16Units k2)
      · rw [if_pos hlt]
        unfold lookupF
        by_cases hk3 : k3 = k
        · by_cases hk2 : k2 = k
          · exfalso
            rw [hk3, ← hk2] at hlt
            rw [lexLt_irrefl] at hlt
            cases hlt
          · simp [hk3, hk2]
        · simp [hk3, lookup_insertField k k2 v t]
      · rw [if_neg hlt]
        by_cases hk2 : k2 = k
        · simp [lookupF, hk2]
        · simp [lookupF, hk2]

/-- Sorting fields does not change lookup. -/
theorem lookup_sortFields (k : String) :
    (gs : JsonFields) → lookupF k (sortFields gs) = lookupF k gs
  | .nil => rfl
  | .cons k2 v t => by
      unfold sortFields
      rw [lookup_insertField, lookup_sortFields k t]
      rfl

/-- Sorting values pointwise maps lookups through sortValue. -/
theorem lookup_sortFieldVals (k : String) :
    (fs : JsonFields) → lookupF k (sortFieldVals fs) = (lookupF k fs).map sortValue
  | .nil => rfl
  | .cons k2 v t => by
      unfold sortFieldVals lookupF
      by_cases hk2 : k2 = k
      · simp [hk2]
      · simp [hk2, lookup_sortFieldVals k t]

/-- Field access through the canonicalizer: the (first) value, sorted. -/
theorem getField_sortValue (doc : Json) (k : String) :
    (sortValue doc).getField k = (doc.getField k).map sortValue := by
  cases doc with
  | obj fs =>
      show lookupF k (sortFields (sortFieldVals fs)) = (lookupF k fs).map sortValue
      rw [lookup_sortFields, lookup_sortFieldVals]
  | null => rfl
  | bool b => rfl
  | num n => rfl
  | str s => rfl
  | arr xs => rfl

/-- Truthiness is preserved by key sorting. -/
theorem truthy_sortValue (v : Json) : truthy (sortValue v) = truthy v := by
  cases v <;> rfl

mutual
/-- The JS string coercion is insensitive to key sorting (objects display as
a constant, arrays keep their element order). -/
theorem toJsStr_sortValue : (v : Json) → toJsStr (sortValue v) = toJsStr v
  | .null => rfl
  | .bool b => by cases b <;> rfl
  | .num n => rfl
  | .str s => rfl
  | .obj fs => rfl
  | .arr xs => by
      show toJsStr (.arr (sortArrVals xs)) = toJsStr (.arr xs)
      unfold toJsStr
      exact joinArr_sortArrVals xs
/-- Array joining is insensitive to key sorting of the elements. -/
theorem joinArr_sortArrVals : (xs : JsonList) → joinArr (sortArrVals xs) = joinArr xs
  | .nil => rfl
  | .cons .null .nil => rfl
  | .cons (.bool b) .nil => by cases b <;> rfl
  | .cons (.num n) .nil => rfl
  | .cons (.str s) .nil => rfl
  | .cons (.arr ys) .nil => by
      show toJsStr (sortValue (.arr ys)) = toJsStr (.arr ys)
      exact toJsStr_sortValue (.arr ys)
  | .cons (.obj fs) .nil => rfl
  | .cons .null (.cons h2 t) => by
      show "," ++ joinArr (sortArrVals (.cons h2 t)) = "," ++ joinArr (.cons h2 t)
      rw [joinArr_sortArrVals (.cons h2 t)]
  | .cons (.bool b) (.cons h2 t) => by
      show toJsStr (sortValue (.bool b)) ++ "," ++ joinArr (sortArrVals (.cons h2 t)) =
        toJsStr (.bool b) ++ "," ++ joinArr (.cons h2 t)
      rw [joinArr_sortArrVals (.cons h2 t), toJsStr_sortValue (.bool b)]
  | .cons (.num n) (.cons h2 t) => by
      show toJsStr (sortValue (.num n)) ++ "," ++ joinArr (sortArrVals (.cons h2 t)) =
        toJsStr (.num n) ++ "," ++ joinArr (.cons h2 t)
      rw [joinArr_sortArrVals (.cons h2 t), toJsStr_sortValue (.num n)]
  | .cons (.str s) (.cons h2 t) => by
      show toJsStr (sortValue (.str s)) ++ "," ++ joinArr (sortArrVals (.cons h2 t)) =
        toJsStr (.str s) ++ "," ++ joinArr (.cons h2 t)
      rw [joinArr_sortArrVals (.cons h2 t), toJsStr_sortValue (.str s)]
  | .cons (.arr ys) (.cons h2 t) => by
      show toJsStr (sortValue (.arr ys)) ++ "," ++ joinArr (sortArrVals (.cons h2 t)) =
        toJsStr (.arr ys) ++ "," ++ joinArr (.cons h2 t)
      rw [joinArr_sortArrVals (.cons h2 t), toJsStr_sortValue (.arr ys)]
  | .cons (.obj fs) (.cons h2 t) => by
      show toJsStr (sortValue (.obj fs)) ++ "," ++ joinArr (sortArrVals (.cons h2 t)) =
        toJsStr (.obj fs) ++ "," ++ joinArr (.cons h2 t)
      rw [joinArr_sortArrVals (.cons h2 t), toJsStr_sortValue (.obj fs)]
end

/-- Adjacent-pair sortedness of a field list (non-strict, by key). -/
def sortedFB : JsonFields → Bool
  | .nil => true
  | .cons _ _ .nil => true
  | .cons k1 _ (.cons k2 v2 t) =>
      !(lexLt (utf16Units k2) (utf16Units k1)) && sortedFB (.cons k2 v2 t)

/-- The tail of a sorted field list is sorted. -/
theorem sortedFB_tail (k : String) (v : Json) (t : JsonFields)
    (h : sortedFB (.cons k v t) = true) : sortedFB t = true := by
  cases t with
  | nil => rfl
  | cons k2 v2 t2 =>
      simp only [sortedFB, Bool.and_eq_true] at h
      exact h.2

/-- Inserting into a sorted field list keeps it sorted. -/
theorem insertField_sorted (k : String) (v : Json) :
    (gs : JsonFields) → sortedFB gs = true → sortedFB (insertField k v gs) = true
  | .nil, _ => rfl
  | .cons k2 v2 t, h => by
      unfold insertField
      by_cases hlt : lexLt (utf16Units k2) (utf16Units k)
      · rw [if_pos hlt]
        cases t with
        | nil =>
            show sortedFB (.cons k2 v2 (.cons k v .nil)) = true
            simp [sortedFB, lexLt_asymm _ _ hlt]
        | cons k3 v3 t2 =>
            have hpair : lexLt (utf16Units k3) (utf16Units k2) = false := by
              simp only [sortedFB, Bool.and_eq_true, Bool.not_eq_true'] at h
              exact h.1
            have htail : sortedFB (.cons k3 v3 t2) = true := sortedFB_tail _ _ _ h
            have hrec := insertField_sorted k v (.cons k3 v3 t2) htail
            unfold insertField at hrec ⊢
            by_cases hlt3 : lexLt (utf16Units k3) (utf16Units k)
            · rw [if_pos hlt3] at hrec ⊢
              show sortedFB (.cons k2 v2 (.cons k3 v3 (insertField k v t2))) = true
              cases t2 with
              | nil =>
                  simp only [insertField] at hrec ⊢
                  simp [sortedFB, hpair, lexLt_asymm _ _ hlt3]
              | cons k4 v4 t3 =>
                  simp only [sortedFB, Bool.and_eq_true] at hrec ⊢
                  exact ⟨by simp [hpair], hrec⟩
            · rw [if_neg hlt3] at hrec ⊢
              show sortedFB (.cons k2 v2 (.cons k v (.cons k3 v3 t2))) = true
              simp only [sortedFB, Bool.and_eq_true] at hrec ⊢
              refine ⟨?_, hrec⟩
              simp [lexLt_asymm _ _ hlt]
      · rw [if_neg hlt]
        show sortedFB (.cons k v (.cons k2 v2 t)) = true
        simp only [sortedFB, Bool.and_eq_true]
        exact ⟨by simpa using hlt, h⟩

/-- Insertion sort output is sorted. -/
theorem sortFields_sorted : (gs : JsonFields) → sortedFB (sortFields gs) = true
  | .nil => rfl
  | .cons k v t => by
      unfold sortFields
      exact insertField_sorted k v (sortFields t) (sortFields_sorted t)

/-- Insertion sort is the identity on sorted lists. -/
theorem sortFields_of_sorted : (gs : JsonFields) → sortedFB gs = true → sortFields gs = gs
  | .nil, _ => rfl
  | .cons k v t, h => by
      unfold sortFields
      rw [sortFields_of_sorted t (sortedFB_tail _ _ _ h)]
      cases t with
      | nil => rfl
      | cons k2 v2 t2 =>
          have hp : lexLt (utf16Units k2) (utf16Units k) = false := by
            simp only [sortedFB, Bool.and_eq_true, Bool.not_eq_true'] at h
            exact h.1
          unfold insertField
          rw [hp]
          simp

/-- Sorting the fields twice equals sorting once. -/
theorem sortFields_idem (gs : JsonFields) : sortFields (sortFields gs) = sortFields gs :=
  sortFields_of_sorted _ (sortFields_sorted gs)

/-- Unfolding equation: insert past a smaller head. -/
theorem insertField_cons_lt (k k2 : String) (v v2 : Json) (t : JsonFields)
    (hlt : lexLt (utf16Units k2) (utf16Units k) = true) :
    insertField k v (.cons k2 v2 t) = .cons k2 v2 (insertField k v t) := by
  unfold insertField
  rw [if_pos hlt, ← insertField.eq_def]

/-- Unfolding equation: insert before a head that is not smaller. -/
theorem insertField_cons_ge (k k2 : String) (v v2 : Json) (t : JsonFields)
    (hlt : lexLt (utf16Units k2) (utf16Units k) = false) :
    insertField k v (.cons k2 v2 t) = .cons k v (.cons k2 v2 t) := by
  unfold insertField
  rw [hlt]
  simp

/-- Unfolding equation for sortFieldVals on cons. -/
theorem sortFieldVals_cons (k : String) (v : Json) (t : JsonFields) :
    sortFieldVals (.cons k v t) = .cons k (sortValue v) (sortFieldVals t) := rfl

/-- Sorting the values commutes with a sorted insert (only keys are
compared). -/
theorem sortFieldVals_insertField (k : String) (v : Json) :
    (gs : JsonFields) → sortFieldVals (insertField k v gs) =
      insertField k (sortValue v) (sortFieldVals gs)
  | .nil => rfl
  | .cons k2 v2 t => by
      by_cases hlt : lexLt (utf16Units k2) (utf16Units k)
      · rw [insertField_cons_lt _ _ _ _ _ hlt, sortFieldVals_cons, sortFieldVals_cons,
          sortFieldVals_insertField k v t, insertField_cons_lt _ _ _ _ _ hlt]
      · have hlt2 : lexLt (utf16Units k2) (utf16Units k) = false := by simpa using hlt
        rw [insertField_cons_ge _ _ _ _ _ hlt2, sortFieldVals_cons, sortFieldVals_cons,
          insertField_cons_ge _ _ _ _ _ hlt2]

/-- Sorting the values commutes with sorting the keys. -/
theorem sortFieldVals_sortFields : (gs : JsonFields) →
    sortFieldVals (sortFields gs) = sortFields (sortFieldVals gs)
  | .nil => rfl
  | .cons k v t => by
      unfold sortFields
      rw [sortFieldVals_insertField, sortFieldVals_sortFields t]
      rfl

mutual
/-- Canonicalization is idempotent. -/
theorem sortValue_idem : (v : Json) → sortValue (sortValue v) = sortValue v
  | .null => rfl
  | .bool b => rfl
  | .num n => rfl
  | .str s => rfl
  | .arr xs => by
      show Json.arr (sortArrVals (sortArrVals xs)) = .arr (sortArrVals xs)
      rw [sortArrVals_idem xs]
  | .obj fs => by
      show Json.obj (sortFields (sortFieldVals (sortFields (sortFieldVals fs)))) =
        .obj (sortFields (sortFieldVals fs))
      rw [sortFieldVals_sortFields, sortFields_idem, sortFieldVals_idem fs]
/-- Element-wise canonicalization is idempotent. -/
theorem sortArrVals_idem : (xs : JsonList) → sortArrVals (sortArrVals xs) = sortArrVals xs
  | .nil => rfl
  | .cons h t => by
      show JsonList.cons (sortValue (sortValue h)) (sortArrVals (sortArrVals t)) =
        .cons (sortValue h) (sortArrVals t)
      rw [sortValue_idem h, sortArrVals_idem t]
/-- Field-value canonicalization is idempotent. -/
theorem sortFieldVals_idem : (fs : JsonFields) →
    sortFieldVals (sortFieldVals fs) = sortFieldVals fs
  | .nil => rfl
  | .cons k v t => by
      show JsonFields.cons k (sortValue (sortValue v)) (sortFieldVals (sortFieldVals t)) =
        .cons k (sortValue v) (sortFieldVals t)
      rw [sortValue_idem v, sortFieldVals_idem t]
end

/-- Serializing a canonicalized value gives the same canonical text. -/
theorem serialize_sortValue (v : Json) :
    CanonicalJSON.serialize (sortValue v) = CanonicalJSON.serialize v := by
  unfold CanonicalJSON.serialize
  rw [sortValue_idem]

/-- Strict lexicographic order is transitive. -/
theorem lexLt_trans (a b c : List Nat) (h1 : lexLt a b = true) (h2 : lexLt b c = true) :
    lexLt a c = true := by
  induction a generalizing b c with
  | nil =>
      cases c with
      | nil =>
          cases b with
          | nil => simp [lexLt] at h1
          | cons y ys => simp [lexLt] at h2
      | cons z zs => rfl
  | cons x xs ih =>
      cases b with
      | nil => simp [lexLt] at h1
      | cons y ys =>
          cases c with
          | nil => simp [lexLt] at h2
          | cons z zs =>
              simp only [lexLt] at h1 h2 ⊢
              rcases Nat.lt_trichotomy x y with hxy | hxy | hxy
              · rcases Nat.lt_trichotomy y z with hyz | hyz | hyz
                · rw [if_pos (by omega)]
                · subst hyz
                  rw [if_pos hxy]
                · rw [if_neg (by omega), if_pos hyz] at h2
                  cases h2
              · subst hxy
                rw [if_neg (by omega), if_neg (by omega)] at h1
                rcases Nat.lt_trichotomy x z with hyz | hyz | hyz
                · rw [if_pos hyz]
                · subst hyz
                  rw [if_neg (by omega), if_neg (by omega)] at h2 ⊢
                  exact ih ys zs h1 h2
                · rw [if_neg (by omega), if_pos hyz] at h2
                  cases h2
              · rw [if_neg (by omega), if_pos hxy] at h1
                cases h1

/-- Two lists not strictly below each other in either direction are related:
the reverse comparison holds or they are equal. -/
theorem lexLt_connex (a b : List Nat) (h : lexLt a b = false) :
    lexLt b a = true ∨ a = b := by
  induction a generalizing b with
  | nil =>
      cases b with
      | nil => exact Or.inr rfl
      | cons y ys => simp [lexLt] at h
  | cons x xs ih =>
      cases b with
      | nil => exact Or.inl rfl
      | cons y ys =>
          simp only [lexLt] at h ⊢
          rcases Nat.lt_trichotomy x y with hxy | hxy | hxy
          · rw [if_pos hxy] at h
            cases h
          · subst hxy
            rw [if_neg (by omega), if_neg (by omega)] at h ⊢
            rcases ih ys h with h2 | h2
            · exact Or.inl h2
            · exact Or.inr (by rw [h2])
          · exact Or.inl (by rw [if_pos hxy])

/-- Negated strict order is transitive. -/
theorem lexLt_neg_trans (a b c : List Nat) (h1 : lexLt a b = false)
    (h2 : lexLt b c = false) : lexLt a c = false := by
  rcases lexLt_connex a b h1 with hba | hab
  · by_cases hac : lexLt a c = true
    · have := lexLt_trans b a c hba hac
      rw [this] at h2
      cases h2
    · simpa using hac
  · rw [hab]
    exact h2

/-- Keys of a field list. -/
def keysOf : JsonFields → List String
  | .nil => []
  | .cons k _ t => k :: keysOf t

/-- In a sorted field list, every key of the tail is at least the head key. -/
theorem sorted_lb (k3 : String) (v3 : Json) :
    (gs : JsonFields) → sortedFB (.cons k3 v3 gs) = true →
      ∀ k4 ∈ keysOf gs, lexLt (utf16Units k4) (utf16Units k3) = false
  | .nil, _ => by intro k4 h4; cases h4
  | .cons k4 v4 t, h => by
      intro k5 h5
      have hadj : lexLt (utf16Units k4) (utf16Units k3) = false := by
        simp only [sortedFB, Bool.and_eq_true, Bool.not_eq_true'] at h
        exact h.1
      rcases List.mem_cons.mp h5 with h6 | h6
      · rw [h6]
        exact hadj
      · have htail : sortedFB (.cons k4 v4 t) = true := sortedFB_tail _ _ _ h
        have := sorted_lb k4 v4 t htail k5 h6
        exact lexLt_neg_trans _ _ _ this hadj

/-- Keys survive filtering. -/
theorem keysOf_filterOut (k k4 : String) :
    (gs : JsonFields) → k4 ∈ keysOf (filterOutKey k gs) → k4 ∈ keysOf gs
  | .nil, h => h
  | .cons k2 v2 t, h => by
      unfold filterOutKey at h
      by_cases hk : k2 = k
      · rw [if_pos hk] at h
        exact List.mem_cons_of_mem _ (keysOf_filterOut k k4 t h)
      · rw [if_neg hk] at h
        rcases List.mem_cons.mp h with h2 | h2
        · exact h2 ▸ List.mem_cons_self _ _
        · exact List.mem_cons_of_mem _ (keysOf_filterOut k k4 t h2)

/-- Unfolding equation for filterOutKey on cons. -/
theorem filterOutKey_cons (k k2 : String) (v2 : Json) (t : JsonFields) :
    filterOutKey k (.cons k2 v2 t) =
      if k2 = k then filterOutKey k t else .cons k2 v2 (filterOutKey k t) := by
  rw [filterOutKey.eq_def]

/-- Filtering a key out of a sorted list commutes with a sorted insert of a
different key; inserting the filtered key and filtering removes it. -/
theorem filterOut_insertField_sorted (k k2 : String) (v : Json) :
    (gs : JsonFields) → sortedFB gs = true →
      filterOutKey k (insertField k2 v gs) =
        if k2 = k then filterOutKey k gs
        else insertField k2 v (filterOutKey k gs)
  | .nil, _ => by
      unfold insertField
      rw [filterOutKey_cons]
      by_cases hk : k2 = k
      · simp [hk, filterOutKey]
      · simp [hk, filterOutKey, insertField]
  | .cons k3 v3 t, h => by
      by_cases hlt : lexLt (utf16Units k3) (utf16Units k2)
      · rw [insertField_cons_lt _ _ _ _ _ hlt, filterOutKey_cons, filterOutKey_cons]
        have hrec := filterOut_insertField_sorted k k2 v t (sortedFB_tail _ _ _ h)
        by_cases hk3 : k3 = k
        · rw [if_pos hk3, if_pos hk3, hrec]
        · rw [if_neg hk3, if_neg hk3, hrec]
          by_cases hk2 : k2 = k
          · rw [if_pos hk2, if_pos hk2]
          · rw [if_neg hk2, if_neg hk2, insertField_cons_lt _ _ _ _ _ hlt]
      · have hlt2 : lexLt (utf16Units k3) (utf16Units k2) = false := by simpa using hlt
        rw [insertField_cons_ge _ _ _ _ _ hlt2, filterOutKey_cons]
        by_cases hk2 : k2 = k
        · rw [if_pos hk2, if_pos hk2]
        · rw [if_neg hk2, if_neg hk2, filterOutKey_cons]
          by_cases hk3 : k3 = k
          · rw [if_pos hk3]
            cases hF : filterOutKey k t with
            | nil => unfold insertField; rfl
            | cons k4 v4 t2 =>
                have hk4 : k4 ∈ keysOf (filterOutKey k t) := by
                  rw [hF]
                  exact List.mem_cons_self _ _
                have hmem := keysOf_filterOut k k4 t hk4
                have hge3 := sorted_lb k3 v3 t h k4 hmem
                have hge2 := lexLt_neg_trans _ _ _ hge3 hlt2
                rw [insertField_cons_ge _ _ _ _ _ hge2]
          · rw [if_neg hk3, insertField_cons_ge _ _ _ _ _ hlt2]

/-- Filtering commutes with key sorting. -/
theorem filterOut_sortFields (k : String) :
    (gs : JsonFields) → filterOutKey k (sortFields gs) = sortFields (filterOutKey k gs)
  | .nil => rfl
  | .cons k2 v t => by
      show filterOutKey k (insertField k2 v (sortFields t)) = _
      rw [filterOut_insertField_sorted k k2 v (sortFields t) (sortFields_sorted t),
        filterOutKey_cons]
      by_cases hk2 : k2 = k
      · rw [if_pos hk2, if_pos hk2, filterOut_sortFields k t]
      · rw [if_neg hk2, if_neg hk2, filterOut_sortFields k t]
        rfl

/-- Filtering commutes with value sorting. -/
theorem filterOut_sortFieldVals (k : String) :
    (fs : JsonFields) → filterOutKey k (sortFieldVals fs) = sortFieldVals (filterOutKey k fs)
  | .nil => rfl
  | .cons k2 v t => by
      rw [sortFieldVals_cons, filterOutKey_cons, filterOutKey_cons]
      by_cases hk2 : k2 = k
      · rw [if_pos hk2, if_pos hk2, filterOut_sortFieldVals k t]
      · rw [if_neg hk2, if_neg hk2, filterOut_sortFieldVals k t, sortFieldVals_cons]

/-- Indexed spread entries of a value-sorted array are the value-sorted
indexed entries. -/
theorem indexFieldsArr_sortArrVals : (i : Nat) → (xs : JsonList) →
    indexFieldsArr i (sortArrVals xs) = sortFieldVals (indexFieldsArr i xs)
  | _, .nil => rfl
  | i, .cons h t => by
      show JsonFields.cons (toString i) (sortValue h) (indexFieldsArr (i + 1) (sortArrVals t)) =
        JsonFields.cons (toString i) (sortValue h) (sortFieldVals (indexFieldsArr (i + 1) t))
      rw [indexFieldsArr_sortArrVals (i + 1) t]

/-- Canonical serialization ignores a value-sorting pass over the fields. -/
theorem serialize_obj_sortFieldVals (G : JsonFields) :
    CanonicalJSON.serialize (.obj (sortFieldVals G)) = CanonicalJSON.serialize (.obj G) := by
  have h : sortValue (Json.obj (sortFieldVals G)) = sortValue (Json.obj G) := by
    show Json.obj (sortFields (sortFieldVals (sortFieldVals G))) =
      Json.obj (sortFields (sortFieldVals G))
    rw [sortFieldVals_idem]
  show String.mk (renderJson (sortValue (Json.obj (sortFieldVals G)))) =
    String.mk (renderJson (sortValue (Json.obj G)))
  rw [h]

/-- The canonical serialization of the signature-stripped document is
insensitive to recursive key sorting of the document. -/
theorem serialize_strip_sortValue (doc : Json) :
    CanonicalJSON.serialize (stripSignature (sortValue doc)) =
      CanonicalJSON.serialize (stripSignature doc) := by
  cases doc with
  | null => rfl
  | bool b => rfl
  | num n => rfl
  | str s => rfl
  | arr xs =>
      show CanonicalJSON.serialize
          (.obj (filterOutKey "signature" (indexFieldsArr 0 (sortArrVals xs)))) =
        CanonicalJSON.serialize (.obj (filterOutKey "signature" (indexFieldsArr 0 xs)))
      rw [indexFieldsArr_sortArrVals, filterOut_sortFieldVals]
      exact serialize_obj_sortFieldVals _
  | obj fs =>
      show CanonicalJSON.serialize
          (.obj (filterOutKey "signature" (sortFields (sortFieldVals fs)))) =
        CanonicalJSON.serialize (.obj (filterOutKey "signature" fs))
      rw [filterOut_sortFields, filterOut_sortFieldVals]
      exact serialize_sortValue (.obj (filterOutKey "signature" fs))

/-- Field truthiness is insensitive to recursive key sorting. -/
theorem truthyField_sortValue (doc : Json) (k : String) :
    truthyField (sortValue doc) k = truthyField doc k := by
  unfold truthyField
  rw [getField_sortValue]
  cases doc.getField k with
  | none => rfl
  | some v => exact truthy_sortValue v

/-- Field display is insensitive to recursive key sorting. -/
theorem displayField_map_sortValue (o : Option Json) :
    displayField (o.map sortValue) = displayField o := by
  cases o with
  | none => rfl
  | some v => exact toJsStr_sortValue v

/-- Matching a possibly-missing field for a number is insensitive to
recursive key sorting of the document it was read from. -/
theorem matchNum_map_sortValue {α : Type} (o : Option Json) (f : Int → α) (d : α) :
    (match o.map sortValue with
      | some (.num n) => f n
      | _ => d) =
    (match o with
      | some (.num n) => f n
      | _ => d) := by
  cases o with
  | none => rfl
  | some v => cases v <;> rfl

/-- Matching a possibly-missing field for a string is insensitive to
recursive key sorting of the document it was read from. -/
theorem matchStr_map_sortValue {α : Type} (o : Option Json) (f : String → α) (d : α) :
    (match o.map sortValue with
      | some (.str s) => f s
      | _ => d) =
    (match o with
      | some (.str s) => f s
      | _ => d) := by
  cases o with
  | none => rfl
  | some v => cases v <;> rfl

/-- Comparing a possibly-missing field against a string literal is
insensitive to recursive key sorting. -/
theorem map_sortValue_eq_some_str (o : Option Json) (s : String) :
    o.map sortValue = some (.str s) ↔ o = some (.str s) := by
  cases o with
  | none => simp
  | some v => cases v <;> simp [sortValue]

/-- Option elimination through a sort-insensitive body is itself
insensitive to recursive key sorting. -/
theorem matchOpt_map_sortValue {α : Type} (o : Option Json) (f : Json → α) (d : α)
    (hf : ∀ v, f (sortValue v) = f v) :
    (match o.map sortValue with
      | some v => f v
      | none => d) =
    (match o with
      | some v => f v
      | none => d) := by
  cases o with
  | none => rfl
  | some v => exact hf v

/-- The structural layer is insensitive to recursive key sorting of its
input document. -/
theorem validateStructural_sortValue (doc : Json) :
    DocumentValidator.validateStructural (sortValue doc) =
      DocumentValidator.validateStructural doc := by
  unfold DocumentValidator.validateStructural
  simp only [getField_sortValue, truthyField_sortValue, displayField_map_sortValue,
    matchNum_map_sortValue, matchStr_map_sortValue, map_sortValue_eq_some_str]
  rw [matchOpt_map_sortValue (doc.getField "parent_hash") _ _
    (fun v => by simp only [truthy_sortValue, toJsStr_sortValue])]

/-- Absent a policy engine, the policy layer passes with no errors. -/
theorem validatePolicy_none (doc : Json) :
    DocumentValidator.validatePolicy none doc = (true, []) := rfl

/-- The cryptographic layer is insensitive to recursive key sorting of its
input document: the assertion applies to the canonicalized re-serialization,
which strips the input's field order. -/
theorem validateCryptographic_sortValue
    (verify : List Nat → List Nat → List Nat → Except String Bool)
    (doc : Json) (ctx : ValidationContext) :
    DocumentValidator.validateCryptographic verify (sortValue doc) ctx =
      DocumentValidator.validateCryptographic verify doc ctx := by
  unfold DocumentValidator.validateCryptographic
  simp only [serialize_strip_sortValue, truthyField_sortValue, getField_sortValue,
    matchStr_map_sortValue, matchNum_map_sortValue]

/-- The validation body with no policy engine is insensitive to recursive
key sorting of its input document. -/
theorem validateBody_sortValue
    (verify : List Nat → List Nat → List Nat → Except String Bool)
    (doc : Json) (ctx : ValidationContext) :
    validateBody verify none (sortValue doc) ctx = validateBody verify none doc ctx := by
  unfold validateBody
  rw [validateStructural_sortValue, validateCryptographic_sortValue,
    validatePolicy_none, validatePolicy_none]

/-- The observed validation result with no policy engine is insensitive to
recursive key sorting of its input document. -/
theorem run_sortValue
    (verify : List Nat → List Nat → List Nat → Except String Bool)
    (doc : Json) (ctx : ValidationContext) :
    DocumentValidator.run verify none (sortValue doc) ctx =
      DocumentValidator.run verify none doc ctx := by
  unfold DocumentValidator.run
  rw [validateBody_sortValue]

/-- C2 (counterexample): a document whose own rendering is not canonical
(its keys are out of order) is nevertheless accepted by verifyDocument with
cryptographic_valid = true and no errors, because the canonicality
assertion is applied to the validator's own canonicalized re-serialization,
not to the input form. -/
theorem non_canonical_document_accepted :
    inCanonicalForm evenSigDoc = false ∧
    (NewZoneCore.verifyDocument (fun _ _ _ => .ok true) [1]
        (initCore "chain") evenSigDoc).cryptographic_valid = true ∧
    (NewZoneCore.verifyDocument (fun _ _ _ => .ok true) [1]
        (initCore "chain") evenSigDoc).errors = [] := by
  refine ⟨by decide, by decide, by decide⟩

/-- C2 (amended): verifyDocument never distinguishes a document from its
canonically key-sorted form: the canonicality assertion is applied to the
validator's own re-serialization of the signature-stripped document, so the
validation result is identical on a document and on its recursive key
sorting; non-canonical input field order is canonicalized, not rejected. -/
theorem verifyDocument_insensitive_to_field_order
    (verify : List Nat → List Nat → List Nat → Except String Bool)
    (pubKey : List Nat) (st : CoreState) (doc : Json) :
    NewZoneCore.verifyDocument verify pubKey st (sortValue doc) =
      NewZoneCore.verifyDocument verify pubKey st doc := by
  unfold NewZoneCore.verifyDocument
  rw [run_sortValue]
